import Mathlib

/-!
Verification of the spatial-reasoning core of the ikea-friheten grid puzzle
game.  The TypeScript sources (`src/types/game.ts`, `src/utils/pathfinding.ts`,
`src/utils/levelGenerator.ts`) are shallowly embedded below: cell tags become
an inductive type, `number` coordinates become `Int`, JavaScript `Map`/`Set`
objects become association lists that preserve insertion order, and the two
`while` loops whose termination is not structural receive an explicit fuel
argument together with proofs that the fuel chosen by the embedding never
runs out on the inputs the theorems speak about.
-/

namespace Friheten

/-- Cell tags of the game grid, mirroring the `CellType` union of the source
(`empty`, `wall`, `door` and the seven sofa variants). -/
inductive Cell where
  | empty
  | wall
  | door
  | sofaSingle
  | sofaRectH
  | sofaRectV
  | sofaL0
  | sofaL90
  | sofaL180
  | sofaL270
  deriving DecidableEq, Repr

/-- Mirrors the `startsWith('sofa')` test used by `identifyCriticalPaths`:
true exactly on the seven sofa variants. -/
def Cell.isSofa : Cell → Bool
  | .empty => false
  | .wall => false
  | .door => false
  | _ => true

/-- Integer coordinate pair, mirroring the source `Position` type
(`x` is the column, `y` is the row). -/
structure Pos where
  x : Int
  y : Int
  deriving DecidableEq, Repr

/-- A grid is a row-major list of rows of cells, mirroring `CellType[][]`. -/
abbrev Grid := List (List Cell)

/-- Mirrors `grid[0].length`: the length of the first row. -/
def gridWidth (g : Grid) : Nat := (g.headD []).length

/-- Mirrors `grid.length`. -/
def gridHeight (g : Grid) : Nat := g.length

/-- Mirrors `isInBounds` from the pathfinding module. -/
def isInBounds (p : Pos) (g : Grid) : Bool :=
  decide (0 ≤ p.x) && decide (p.x < (gridWidth g : Int)) &&
    decide (0 ≤ p.y) && decide (p.y < (gridHeight g : Int))

/-- Cell lookup `grid[pos.y][pos.x]`; every access in the source is guarded by
`isInBounds`, so the default value is never observed by the theorems. -/
def cellAt (g : Grid) (p : Pos) : Cell :=
  (g.getD p.y.toNat []).getD p.x.toNat Cell.wall

/-- Mirrors `isWalkable`: the cell at the position is tagged `empty`
(the source performs no bounds check here either). -/
def isWalkable (p : Pos) (g : Grid) : Bool :=
  cellAt g p == Cell.empty

/-- The four direction offsets, in the order used throughout the source:
right, left, down, up. -/
def dirs : List (Int × Int) := [(1, 0), (-1, 0), (0, 1), (0, -1)]

/-- Offset a position by a direction. -/
def shift (p : Pos) (d : Int × Int) : Pos := ⟨p.x + d.1, p.y + d.2⟩

/-- The four orthogonal neighbours of a position, in source order. -/
def nbrsAll (p : Pos) : List Pos := dirs.map (shift p)

/-- Mirrors `heuristic`: Manhattan distance between two positions. -/
def heur (a b : Pos) : Nat := (a.x - b.x).natAbs + (a.y - b.y).natAbs

/-- Well-formedness of a grid: at least one row, and every row has the width
of the first row.  The spec's data model (§3) guarantees rectangular grids;
malformed grids are a caller contract violation (§7). -/
def WFGrid (g : Grid) : Prop :=
  g ≠ [] ∧ ∀ row ∈ g, row.length = gridWidth g

/-- One traversal step of the engine: `v` is one of the four orthogonal
neighbours of `u`, lies in bounds, and its cell is `empty`.  The occupancy of
`u` itself is not constrained, matching the source, which never checks the
start cell. -/
def stepTo (g : Grid) (u v : Pos) : Prop :=
  v ∈ nbrsAll u ∧ (isInBounds v g && isWalkable v g) = true

instance (g : Grid) (u v : Pos) : Decidable (stepTo g u v) := by
  unfold stepTo; infer_instance

/-- A walk of a given number of steps from `s` through 4-connected empty
cells: every cell after the start is in bounds and empty. -/
inductive WalkN (g : Grid) (s : Pos) : Nat → Pos → Prop where
  | zero : WalkN g s 0 s
  | succ {n : Nat} {u v : Pos} : WalkN g s n u → stepTo g u v → WalkN g s (n + 1) v

/-- `t` is connected to `s` through 4-connected empty cells (in zero or more
steps; zero steps connect every position to itself). -/
def Reach (g : Grid) (s t : Pos) : Prop := ∃ n, WalkN g s n t

theorem stepTo_adjacent {g : Grid} {u v : Pos} (h : stepTo g u v) :
    (v.x = u.x + 1 ∧ v.y = u.y) ∨ (v.x = u.x - 1 ∧ v.y = u.y) ∨
      (v.x = u.x ∧ v.y = u.y + 1) ∨ (v.x = u.x ∧ v.y = u.y - 1) := by
  rcases h with ⟨hmem, -⟩
  simp only [nbrsAll, dirs, List.map_cons, List.map_nil, List.mem_cons,
    List.not_mem_nil, or_false, shift] at hmem
  rcases hmem with h | h | h | h <;> subst h <;> simp <;> try omega

theorem stepTo_walkable {g : Grid} {u v : Pos} (h : stepTo g u v) :
    isInBounds v g = true ∧ isWalkable v g = true := by
  rcases h with ⟨-, h⟩
  simp only [Bool.and_eq_true] at h
  exact h

theorem stepTo_ne {g : Grid} {u v : Pos} (h : stepTo g u v) : v ≠ u := by
  rcases stepTo_adjacent h with ⟨hx, -⟩ | ⟨hx, -⟩ | ⟨-, hy⟩ | ⟨-, hy⟩ <;>
    intro he <;> subst he <;> omega

/-- Each traversal step changes the Manhattan distance to a fixed target by at
most one; this is the consistency of the A* heuristic. -/
theorem heur_consistent {g : Grid} {u v : Pos} (t : Pos) (h : stepTo g u v) :
    heur u t ≤ heur v t + 1 := by
  unfold heur
  rcases stepTo_adjacent h with ⟨hx, hy⟩ | ⟨hx, hy⟩ | ⟨hx, hy⟩ | ⟨hx, hy⟩ <;>
    rw [hx, hy] <;> omega

theorem walkN_walkable {g : Grid} {s t : Pos} {n : Nat} (h : WalkN g s n t)
    (hn : t ≠ s) : isInBounds t g = true ∧ isWalkable t g = true := by
  cases h with
  | zero => exact absurd rfl hn
  | succ hw hs => exact stepTo_walkable hs

/-- Search node of the A* implementation (`PathNode` in the source).  The
source stores `f` alongside `g` and `h` but every write maintains
`f = g + h`, so the embedding computes `f` from the other two fields; the
parent pointer is represented by the parent's position (parents are always
nodes already in the closed set, which the source never mutates again). -/
structure Node where
  pos : Pos
  g : Nat
  h : Nat
  parent : Option Pos
  deriving DecidableEq, Repr

/-- Total cost estimate `f = g + h` of a node. -/
def Node.f (n : Node) : Nat := n.g + n.h

/-- One step of the `openSet.forEach` minimum scan: keep the incoming node
when its `f` is strictly below the best seen so far. -/
def selMinStep (best : Option Node) (n : Node) : Option Node :=
  match best with
  | none => some n
  | some b => if n.f < b.f then some n else best

/-- Mirrors the `openSet.forEach` scan of `findPath`: traverse the open set in
insertion order and keep the first node whose `f` is strictly below the best
seen so far (the scan starts from `lowestF = Infinity`, so the first node is
always taken). -/
def selectMin (l : List Node) : Option Node :=
  l.foldl selMinStep none

/-- Processing of one neighbour position inside the A* main loop: skip it when
out of bounds, not walkable, or already closed; otherwise insert a fresh node
at the end of the open set, or lower the recorded cost of the existing node
when the new tentative cost is strictly smaller. -/
def considerNeighbor (g : Grid) (t : Pos) (cur : Node) (closed : List Node)
    (ol : List Node) (np : Pos) : List Node :=
  if isInBounds np g && isWalkable np g then
    if closed.any (fun c => c.pos == np) then ol
    else
      match ol.find? (fun n => n.pos == np) with
      | none => ol ++ [⟨np, cur.g + 1, heur np t, some cur.pos⟩]
      | some old =>
          if cur.g + 1 < old.g then
            ol.map (fun n =>
              if n.pos == np then ⟨np, cur.g + 1, n.h, some cur.pos⟩ else n)
          else ol
  else ol

/-- Expansion of the current node: its four neighbours are processed in the
source's direction order. -/
def expand (g : Grid) (t : Pos) (cur : Node) (closed : List Node)
    (ol : List Node) : List Node :=
  (nbrsAll cur.pos).foldl (considerNeighbor g t cur closed) ol

/-- Path reconstruction (`while (current) { path.unshift(...) }`): walk the
parent chain, looking each parent up in the closed set.  The source's loop
terminates because parent pointers strictly decrease `g`; the embedding makes
this explicit by using the node's `g` as fuel. -/
def buildPath (cl : List Node) : Nat → Node → List Pos
  | 0, n => [n.pos]
  | fuel + 1, n =>
      match n.parent with
      | none => [n.pos]
      | some pp =>
          match cl.find? (fun m => m.pos == pp) with
          | none => [n.pos]
          | some m => buildPath cl fuel m ++ [n.pos]

/-- Main loop of `findPath`.  Each iteration pops the open node with the
lowest `f`, closes it, returns the reconstructed path if it is the target and
expands it otherwise.  The source's `while (openSet.size > 0)` terminates
because every iteration moves one in-bounds position into the closed set; the
fuel passed by `findPath` (`width * height + 1`) therefore never runs out,
which is proved below. -/
def astarLoop (g : Grid) (t : Pos) : Nat → List Node → List Node → Option (List Pos)
  | 0, _, _ => none
  | fuel + 1, ol, cl =>
      match selectMin ol with
      | none => none
      | some cur =>
          let ol2 := ol.eraseP (fun n => n.pos == cur.pos)
          let cl2 := cl ++ [cur]
          if cur.pos == t then some (buildPath cl2 cur.g cur)
          else astarLoop g t fuel (expand g t cur cl2 ol2) cl2

/-- The start node created by `findPath`. -/
def startNode (s t : Pos) : Node := ⟨s, 0, heur s t, none⟩

/-- Embedding of `findPath`: bounds and target-walkability guards, then the
A* loop seeded with the start node. -/
def findPath (s t : Pos) (g : Grid) : Option (List Pos) :=
  if !(isInBounds s g) || !(isInBounds t g) then none
  else if !(isWalkable t g) then none
  else astarLoop g t (gridWidth g * gridHeight g + 1) [startNode s t] []

/-- Processing of one neighbour inside the flood fill: enqueue it and mark it
visited when it is in bounds, walkable and not yet visited. -/
def floodStepF (g : Grid) (st : List Pos × List Pos) (np : Pos) :
    List Pos × List Pos :=
  if isInBounds np g && isWalkable np g && !(st.1.contains np) then
    (st.1 ++ [np], st.2 ++ [np])
  else st

/-- One dequeue step of the flood fill in `findAllReachablePositions`: record
the current position as reachable, then enqueue every in-bounds walkable
unvisited neighbour (marking it visited), in source direction order. -/
def floodStep (g : Grid) (cur : Pos) (vis : List Pos) (queue : List Pos) :
    List Pos × List Pos :=
  (nbrsAll cur).foldl (floodStepF g) (vis, queue)

/-- Queue-processing loop of `findAllReachablePositions`, with fuel standing
in for the termination argument (each enqueued position is freshly marked
visited, so the number of dequeues is bounded by the number of in-bounds
positions plus one). -/
def floodLoop (g : Grid) : Nat → List Pos → List Pos → List Pos → List Pos
  | 0, _, _, acc => acc
  | _ + 1, [], _, acc => acc
  | fuel + 1, q :: qs, vis, acc =>
      let acc2 := if acc.contains q then acc else acc ++ [q]
      let st := floodStep g q vis qs
      floodLoop g fuel st.2 st.1 acc2

/-- Embedding of `findAllReachablePositions`: breadth-first flood fill from
`start` over 4-connected empty cells; `start` itself is recorded
unconditionally. -/
def findAllReachablePositions (start : Pos) (g : Grid) : List Pos :=
  floodLoop g (gridWidth g * gridHeight g + 1) [start] [start] []

theorem selMinGo (l : List Node) (b : Node) :
    ∃ c, l.foldl selMinStep (some b) = some c ∧ (c = b ∨ c ∈ l) ∧ c.f ≤ b.f ∧
      ∀ m ∈ l, c.f ≤ m.f := by
  induction l generalizing b with
  | nil => exact ⟨b, rfl, Or.inl rfl, le_rfl, by simp⟩
  | cons x xs ih =>
    simp only [List.foldl_cons]
    by_cases hx : x.f < b.f
    · obtain ⟨c, hc, hmem, hle, hall⟩ := ih x
      refine ⟨c, ?_, ?_, ?_, ?_⟩
      · simpa [selMinStep, hx] using hc
      · rcases hmem with h | h
        · exact Or.inr (by simp [h])
        · exact Or.inr (by simp [h])
      · exact le_trans hle (le_of_lt hx)
      · intro m hm
        rcases List.mem_cons.mp hm with h | h
        · exact h ▸ hle
        · exact hall m h
    · obtain ⟨c, hc, hmem, hle, hall⟩ := ih b
      refine ⟨c, ?_, ?_, hle, ?_⟩
      · simpa [selMinStep, hx] using hc
      · rcases hmem with h | h
        · exact Or.inl h
        · exact Or.inr (by simp [h])
      · intro m hm
        rcases List.mem_cons.mp hm with h | h
        · subst h; omega
        · exact hall m h

theorem selectMin_spec {l : List Node} {c : Node} (h : selectMin l = some c) :
    c ∈ l ∧ ∀ m ∈ l, c.f ≤ m.f := by
  match l with
  | [] => simp [selectMin] at h
  | x :: xs =>
    obtain ⟨c', hc', hmem, hle, hall⟩ := selMinGo xs x
    have hx : selectMin (x :: xs) = some c' := by
      simpa [selectMin, selMinStep] using hc'
    rw [h] at hx
    obtain rfl : c = c' := Option.some.inj hx
    constructor
    · rcases hmem with h | h
      · simp [h]
      · simp [h]
    · intro m hm
      rcases List.mem_cons.mp hm with h | h
      · exact h ▸ hle
      · exact hall m h

theorem selectMin_eq_none {l : List Node} (h : selectMin l = none) : l = [] := by
  match l with
  | [] => rfl
  | x :: xs =>
    obtain ⟨c', hc', -⟩ := selMinGo xs x
    have hx : selectMin (x :: xs) = some c' := by
      simpa [selectMin, selMinStep] using hc'
    rw [h] at hx
    cases hx

theorem map_nodup_unique {α β : Type} {f : α → β} {l : List α}
    (h : (l.map f).Nodup) {a b : α} (ha : a ∈ l) (hb : b ∈ l)
    (hf : f a = f b) : a = b := by
  induction l with
  | nil => cases ha
  | cons x xs ih =>
    simp only [List.map_cons, List.nodup_cons] at h
    rcases List.mem_cons.mp ha with rfl | ha' <;>
      rcases List.mem_cons.mp hb with h2 | hb'
    · exact h2.symm
    · exact absurd (hf ▸ List.mem_map_of_mem f hb') h.1
    · exact absurd (hf ▸ List.mem_map_of_mem f ha') (h2 ▸ h.1)
    · exact ih h.2 ha' hb'

theorem find?_pos_eq {l : List Node} (h : (l.map Node.pos).Nodup) {a : Node}
    (ha : a ∈ l) : l.find? (fun n => n.pos == a.pos) = some a := by
  induction l with
  | nil => cases ha
  | cons x xs ih =>
    by_cases hx : x.pos = a.pos
    · have : x = a := map_nodup_unique h (List.mem_cons_self x xs) ha hx
      subst this
      simp [List.find?]
    · have ha' : a ∈ xs := by
        rcases List.mem_cons.mp ha with rfl | h2
        · exact absurd rfl hx
        · exact h2
      have : (x.pos == a.pos) = false := by
        simp [hx]
      simp only [List.find?, this]
      exact ih (by simp only [List.map_cons, List.nodup_cons] at h; exact h.2) ha'

theorem eraseP_key_mem_iff {l : List Node} (hnd : (l.map Node.pos).Nodup)
    {cur : Node} (hc : cur ∈ l) {x : Node} :
    x ∈ l.eraseP (fun n => n.pos == cur.pos) ↔ x ∈ l ∧ x ≠ cur := by
  obtain ⟨a, l1, l2, hfst, hpa, hl, he⟩ :=
    List.exists_of_eraseP (p := fun n => n.pos == cur.pos) hc (by simp)
  have hac : a = cur := by
    refine map_nodup_unique hnd ?_ hc (by simpa using hpa)
    rw [hl]; simp
  subst hac
  have hnotmem : a ∉ l1 ++ l2 := by
    intro hx
    rw [hl] at hnd
    simp only [List.map_append, List.map_cons] at hnd
    rcases List.mem_append.mp hx with h1 | h2
    · exact (List.nodup_append.mp hnd).2.2 (List.mem_map_of_mem _ h1)
        (List.mem_cons_self _ _)
    · have h3 := (List.nodup_append.mp hnd).2.1
      exact (List.nodup_cons.mp h3).1 (List.mem_map_of_mem _ h2)
  rw [he, hl]
  constructor
  · intro hx
    constructor
    · rcases List.mem_append.mp hx with h | h
      · exact List.mem_append.mpr (Or.inl h)
      · exact List.mem_append.mpr (Or.inr (List.mem_cons_of_mem _ h))
    · intro hxa
      exact hnotmem (hxa ▸ hx)
  · rintro ⟨hx, hne⟩
    rcases List.mem_append.mp hx with h | h
    · exact List.mem_append.mpr (Or.inl h)
    · rcases List.mem_cons.mp h with rfl | h2
      · exact absurd rfl hne
      · exact List.mem_append.mpr (Or.inr h2)

theorem length_le_area {g : Grid} {l : List Pos} (hnd : l.Nodup)
    (hb : ∀ p ∈ l, isInBounds p g = true) :
    l.length ≤ gridWidth g * gridHeight g := by
  classical
  set f : Pos → Nat × Nat := fun p => (p.x.toNat, p.y.toNat) with hf
  have hinj : ∀ p ∈ l, ∀ q ∈ l, f p = f q → p = q := by
    intro p hp q hq hpq
    have hbp := hb p hp
    have hbq := hb q hq
    simp only [isInBounds, Bool.and_eq_true, decide_eq_true_eq] at hbp hbq
    simp only [hf, Prod.mk.injEq] at hpq
    have hx : p.x = q.x := by omega
    have hy : p.y = q.y := by omega
    cases p; cases q; simp_all
  have hmnd : (l.map f).Nodup := List.Nodup.map_on hinj hnd
  have hsub : (l.map f).toFinset ⊆
      Finset.range (gridWidth g) ×ˢ Finset.range (gridHeight g) := by
    intro x hx
    simp only [List.mem_toFinset, List.mem_map] at hx
    obtain ⟨p, hp, rfl⟩ := hx
    have hbp := hb p hp
    simp only [isInBounds, Bool.and_eq_true, decide_eq_true_eq] at hbp
    simp only [Finset.mem_product, Finset.mem_range, hf]
    omega
  have hcard := Finset.card_le_card hsub
  rw [List.toFinset_card_of_nodup hmnd] at hcard
  simpa [Finset.card_product] using hcard

/-- Invariant of the open set of the A* loop, relative to a closed set `cl`:
position keys are distinct, `h` caches the heuristic, every node's `g` is
realised by an actual walk, parent pointers refer to closed nodes one step
and one cost unit back, and open keys are disjoint from closed keys. -/
structure OpenInv (g : Grid) (s t : Pos) (cl ol : List Node) : Prop where
  nodup : (ol.map Node.pos).Nodup
  hOK : ∀ x ∈ ol, x.h = heur x.pos t
  inb : ∀ x ∈ ol, isInBounds x.pos g = true
  wk : ∀ x ∈ ol, x.pos = s ∨ isWalkable x.pos g = true
  gW : ∀ x ∈ ol, WalkN g s x.g x.pos
  par : ∀ x ∈ ol, (x.parent = none → x.pos = s ∧ x.g = 0) ∧
    ∀ pp, x.parent = some pp →
      ∃ m ∈ cl, m.pos = pp ∧ m.g + 1 = x.g ∧ stepTo g m.pos x.pos
  disj : ∀ x ∈ ol, ∀ c ∈ cl, x.pos ≠ c.pos

theorem considerNeighbor_inv {g : Grid} {s t : Pos} {cur : Node}
    {cl2 ol : List Node} (hcw : WalkN g s cur.g cur.pos) (hcm : cur ∈ cl2)
    (H : OpenInv g s t cl2 ol) (np : Pos) (hnp : np ∈ nbrsAll cur.pos) :
    OpenInv g s t cl2 (considerNeighbor g t cur cl2 ol np) ∧
      (∀ x ∈ ol, ∃ x' ∈ considerNeighbor g t cur cl2 ol np,
        x'.pos = x.pos ∧ x'.g ≤ x.g) ∧
      ((isInBounds np g && isWalkable np g) = true → (∀ c ∈ cl2, c.pos ≠ np) →
        ∃ q ∈ considerNeighbor g t cur cl2 ol np, q.pos = np ∧ q.g ≤ cur.g + 1) := by
  by_cases hguard : (isInBounds np g && isWalkable np g) = true
  · have hstep : stepTo g cur.pos np := ⟨hnp, hguard⟩
    by_cases hclosed : cl2.any (fun c => c.pos == np) = true
    · have hres : considerNeighbor g t cur cl2 ol np = ol := by
        simp [considerNeighbor, hguard, hclosed]
      rw [hres]
      refine ⟨H, fun x hx => ⟨x, hx, rfl, le_rfl⟩, ?_⟩
      intro hg hnc
      rcases List.any_eq_true.mp hclosed with ⟨c, hc, hcp⟩
      exact absurd (by simpa using hcp) (hnc c hc)
    · match hfind : ol.find? (fun n => n.pos == np) with
      | none =>
        have hnew : considerNeighbor g t cur cl2 ol np =
            ol ++ [⟨np, cur.g + 1, heur np t, some cur.pos⟩] := by
          simp [considerNeighbor, hguard, hclosed, hfind]
        have hfresh : ∀ x ∈ ol, x.pos ≠ np := by
          intro x hx
          have := List.find?_eq_none.mp hfind x hx
          simpa using this
        have hncl : ∀ c ∈ cl2, c.pos ≠ np := by
          intro c hc he
          exact hclosed (List.any_eq_true.mpr ⟨c, hc, by simp [he]⟩)
        rw [hnew]
        refine ⟨?_, ?_, ?_⟩
        · constructor
          · rw [List.map_append]
            refine List.Nodup.append H.nodup (by simp) ?_
            intro a ha hb
            simp only [List.map_cons, List.map_nil, List.mem_cons,
              List.not_mem_nil, or_false] at hb
            rcases List.mem_map.mp ha with ⟨x, hx, rfl⟩
            exact hfresh x hx hb
          · intro x hx
            rcases List.mem_append.mp hx with h | h
            · exact H.hOK x h
            · simp only [List.mem_cons, List.not_mem_nil, or_false] at h
              subst h; rfl
          · intro x hx
            rcases List.mem_append.mp hx with h | h
            · exact H.inb x h
            · simp only [List.mem_cons, List.not_mem_nil, or_false] at h
              subst h
              exact (stepTo_walkable hstep).1
          · intro x hx
            rcases List.mem_append.mp hx with h | h
            · exact H.wk x h
            · simp only [List.mem_cons, List.not_mem_nil, or_false] at h
              subst h
              exact Or.inr (stepTo_walkable hstep).2
          · intro x hx
            rcases List.mem_append.mp hx with h | h
            · exact H.gW x h
            · simp only [List.mem_cons, List.not_mem_nil, or_false] at h
              subst h
              exact WalkN.succ hcw hstep
          · intro x hx
            rcases List.mem_append.mp hx with h | h
            · exact H.par x h
            · simp only [List.mem_cons, List.not_mem_nil, or_false] at h
              subst h
              refine ⟨fun h => ?_, ?_⟩
              · exact nomatch h
              · intro pp hpp
                obtain rfl : cur.pos = pp := by simpa using hpp
                exact ⟨cur, hcm, rfl, rfl, hstep⟩
          · intro x hx
            rcases List.mem_append.mp hx with h | h
            · exact H.disj x h
            · simp only [List.mem_cons, List.not_mem_nil, or_false] at h
              subst h
              intro c hc he
              exact hncl c hc (by simpa using he.symm)
        · intro x hx
          exact ⟨x, List.mem_append.mpr (Or.inl hx), rfl, le_rfl⟩
        · intro hg hnc
          exact ⟨⟨np, cur.g + 1, heur np t, some cur.pos⟩,
            List.mem_append.mpr (Or.inr (by simp)), rfl, le_rfl⟩
      | some old =>
        have hold : old ∈ ol ∧ old.pos = np :=
          ⟨List.mem_of_find?_eq_some hfind, by simpa using List.find?_some hfind⟩
        by_cases hlt : cur.g + 1 < old.g
        · have hupd : considerNeighbor g t cur cl2 ol np =
              ol.map (fun n =>
                if n.pos == np then ⟨np, cur.g + 1, n.h, some cur.pos⟩ else n) := by
            simp [considerNeighbor, hguard, hclosed, hfind, hlt]
          set f : Node → Node := fun n =>
            if n.pos == np then ⟨np, cur.g + 1, n.h, some cur.pos⟩ else n with hfdef
          have hposf : ∀ n : Node, (f n).pos = n.pos := by
            intro n
            by_cases he : n.pos = np
            · simp [hfdef, he]
            · simp [hfdef, he]
          have hkeys : (ol.map f).map Node.pos = ol.map Node.pos := by
            rw [List.map_map]
            exact List.map_congr_left fun a _ => hposf a
          have hhf : ∀ n : Node, (f n).h = n.h := by
            intro n
            by_cases he : n.pos = np
            · simp [hfdef, he]
            · simp [hfdef, he]
          have huniqa : ∀ x ∈ ol, x.pos = np → x = old :=
            fun x hx hxe => map_nodup_unique H.nodup hx hold.1 (hxe.trans hold.2.symm)
          have hcase : ∀ x ∈ ol, f x = x ∨
              (x = old ∧ f x = ⟨np, cur.g + 1, x.h, some cur.pos⟩) := by
            intro x hx
            by_cases he : x.pos = np
            · exact Or.inr ⟨huniqa x hx he, by simp [hfdef, he]⟩
            · exact Or.inl (by simp [hfdef, he])
          rw [hupd]
          refine ⟨?_, ?_, ?_⟩
          · constructor
            · rw [hkeys]; exact H.nodup
            · intro x hx
              rcases List.mem_map.mp hx with ⟨y, hy, rfl⟩
              rw [hhf, hposf]
              exact H.hOK y hy
            · intro x hx
              rcases List.mem_map.mp hx with ⟨y, hy, rfl⟩
              rw [hposf]; exact H.inb y hy
            · intro x hx
              rcases List.mem_map.mp hx with ⟨y, hy, rfl⟩
              rw [hposf]; exact H.wk y hy
            · intro x hx
              rcases List.mem_map.mp hx with ⟨y, hy, rfl⟩
              rcases hcase y hy with he | ⟨-, he⟩
              · rw [he]; exact H.gW y hy
              · rw [he]
                exact WalkN.succ hcw (hold.2 ▸ hstep)
            · intro x hx
              rcases List.mem_map.mp hx with ⟨y, hy, rfl⟩
              rcases hcase y hy with he | ⟨hyold, he⟩
              · rw [he]; exact H.par y hy
              · rw [he]
                refine ⟨fun h => ?_, ?_⟩
                · exact nomatch h
                · intro pp hpp
                  obtain rfl : cur.pos = pp := by simpa using hpp
                  exact ⟨cur, hcm, rfl, rfl, hold.2 ▸ hstep⟩
            · intro x hx
              rcases List.mem_map.mp hx with ⟨y, hy, rfl⟩
              rw [hposf]
              exact H.disj y hy
          · intro x hx
            refine ⟨f x, List.mem_map_of_mem f hx, hposf x, ?_⟩
            rcases hcase x hx with he | ⟨hxold, he⟩
            · rw [he]
            · rw [he]
              show cur.g + 1 ≤ x.g
              have hxg : x.g = old.g := by rw [hxold]
              omega
          · intro hg hnc
            refine ⟨f old, List.mem_map_of_mem f hold.1, ?_, ?_⟩
            · rw [hposf]; exact hold.2
            · have hfo : f old = ⟨np, cur.g + 1, old.h, some cur.pos⟩ := by
                simp [hfdef, hold.2]
              rw [hfo]
        · have hres : considerNeighbor g t cur cl2 ol np = ol := by
            simp [considerNeighbor, hguard, hclosed, hfind, hlt]
          rw [hres]
          refine ⟨H, fun x hx => ⟨x, hx, rfl, le_rfl⟩, ?_⟩
          intro hg hnc
          refine ⟨old, hold.1, hold.2, by omega⟩
  · have hres : considerNeighbor g t cur cl2 ol np = ol := by
      simp [considerNeighbor, hguard]
    rw [hres]
    refine ⟨H, fun x hx => ⟨x, hx, rfl, le_rfl⟩, ?_⟩
    intro hg hnc
    exact absurd hg hguard

theorem foldl_consider_inv {g : Grid} {s t : Pos} {cur : Node} {cl2 : List Node}
    (hcw : WalkN g s cur.g cur.pos) (hcm : cur ∈ cl2) :
    ∀ (l : List Pos), (∀ np ∈ l, np ∈ nbrsAll cur.pos) →
      ∀ ol, OpenInv g s t cl2 ol →
      OpenInv g s t cl2 (l.foldl (considerNeighbor g t cur cl2) ol) ∧
        (∀ x ∈ ol, ∃ x' ∈ l.foldl (considerNeighbor g t cur cl2) ol,
          x'.pos = x.pos ∧ x'.g ≤ x.g) ∧
        (∀ np ∈ l, (isInBounds np g && isWalkable np g) = true →
          (∀ c ∈ cl2, c.pos ≠ np) →
          ∃ q ∈ l.foldl (considerNeighbor g t cur cl2) ol,
            q.pos = np ∧ q.g ≤ cur.g + 1) := by
  intro l
  induction l with
  | nil =>
    intro hmem ol H
    exact ⟨H, fun x hx => ⟨x, hx, rfl, le_rfl⟩, by simp⟩
  | cons np rest ih =>
    intro hmem ol H
    obtain ⟨H1, mono1, cov1⟩ :=
      considerNeighbor_inv hcw hcm H np (hmem np (List.mem_cons_self _ _))
    obtain ⟨H2, mono2, cov2⟩ :=
      ih (fun q hq => hmem q (List.mem_cons_of_mem _ hq))
        (considerNeighbor g t cur cl2 ol np) H1
    simp only [List.foldl_cons]
    refine ⟨H2, ?_, ?_⟩
    · intro x hx
      obtain ⟨x', hx', hpos', hg'⟩ := mono1 x hx
      obtain ⟨x'', hx'', hpos'', hg''⟩ := mono2 x' hx'
      exact ⟨x'', hx'', hpos''.trans hpos', le_trans hg'' hg'⟩
    · intro q hq hg hnc
      rcases List.mem_cons.mp hq with rfl | hq'
      · obtain ⟨q1, hq1, hp1, hg1⟩ := cov1 hg hnc
        obtain ⟨q2, hq2, hp2, hg2⟩ := mono2 q1 hq1
        exact ⟨q2, hq2, hp2.trans hp1, le_trans hg2 hg1⟩
      · exact cov2 q hq' hg hnc

theorem expand_inv {g : Grid} {s t : Pos} {cur : Node} {cl2 ol : List Node}
    (hcw : WalkN g s cur.g cur.pos) (hcm : cur ∈ cl2)
    (H : OpenInv g s t cl2 ol) :
    OpenInv g s t cl2 (expand g t cur cl2 ol) ∧
      (∀ x ∈ ol, ∃ x' ∈ expand g t cur cl2 ol, x'.pos = x.pos ∧ x'.g ≤ x.g) ∧
      (∀ np ∈ nbrsAll cur.pos, (isInBounds np g && isWalkable np g) = true →
        (∀ c ∈ cl2, c.pos ≠ np) →
        ∃ q ∈ expand g t cur cl2 ol, q.pos = np ∧ q.g ≤ cur.g + 1) :=
  foldl_consider_inv hcw hcm (nbrsAll cur.pos) (fun _ h => h) ol H

/-- Full invariant of the A* loop, tying together the open-set invariant and
the properties of the closed set: closed nodes carry optimal costs, every
walkable neighbour of a closed node is recorded with a cost at most one
larger, the start is always recorded with cost zero, and parent pointers
trace back through the closed set. -/
structure AInv (g : Grid) (s t : Pos) (ol cl : List Node) : Prop where
  oinv : OpenInv g s t cl ol
  clNodup : (cl.map Node.pos).Nodup
  clInb : ∀ x ∈ cl, isInBounds x.pos g = true
  clWk : ∀ x ∈ cl, x.pos = s ∨ isWalkable x.pos g = true
  clGW : ∀ x ∈ cl, WalkN g s x.g x.pos
  clOpt : ∀ x ∈ cl, ∀ m, WalkN g s m x.pos → x.g ≤ m
  clClo : ∀ x ∈ cl, ∀ v, stepTo g x.pos v →
    ∃ q, (q ∈ ol ∨ q ∈ cl) ∧ q.pos = v ∧ q.g ≤ x.g + 1
  start : ∃ q, (q ∈ ol ∨ q ∈ cl) ∧ q.pos = s ∧ q.g = 0
  clPar : ∀ x ∈ cl, (x.parent = none → x.pos = s ∧ x.g = 0) ∧
    ∀ pp, x.parent = some pp →
      ∃ m ∈ cl, m.pos = pp ∧ m.g + 1 = x.g ∧ stepTo g m.pos x.pos

/-- Frontier lemma: if a position is reachable in `m` steps and not yet
closed, then the open set holds a node whose total cost estimate is at most
`m` plus the heuristic of that position.  This is where the consistency of
the Manhattan heuristic enters. -/
theorem astar_key {g : Grid} {s t : Pos} {ol cl : List Node}
    (inv : AInv g s t ol cl) :
    ∀ {m : Nat} {z : Pos}, WalkN g s m z → (∀ c ∈ cl, c.pos ≠ z) →
      ∃ q ∈ ol, q.g + heur q.pos t ≤ m + heur z t := by
  intro m z hw
  induction hw with
  | zero =>
    intro hnc
    obtain ⟨q, hq, hqs, hq0⟩ := inv.start
    rcases hq with h | h
    · exact ⟨q, h, by rw [hqs, hq0]⟩
    · exact absurd hqs (hnc q h)
  | @succ n u v hwu hstep ih =>
    intro hnc
    by_cases hu : ∃ c ∈ cl, c.pos = u
    · obtain ⟨c, hc, hcp⟩ := hu
      have hcg : c.g ≤ n := inv.clOpt c hc n (hcp ▸ hwu)
      obtain ⟨q, hq, hqv, hqg⟩ := inv.clClo c hc v (by rw [hcp]; exact hstep)
      rcases hq with h | h
      · exact ⟨q, h, by rw [hqv]; omega⟩
      · exact absurd hqv (hnc q h)
    · push_neg at hu
      obtain ⟨q, hq, hineq⟩ := ih hu
      have hcons := heur_consistent t hstep
      exact ⟨q, hq, by omega⟩

/-- Optimality at pop time: the node selected by the minimum-`f` scan carries
a cost not larger than the length of any walk to its position. -/
theorem astar_pop {g : Grid} {s t : Pos} {ol cl : List Node} {cur : Node}
    (inv : AInv g s t ol cl) (hsel : selectMin ol = some cur) :
    ∀ m, WalkN g s m cur.pos → cur.g ≤ m := by
  intro m hw
  obtain ⟨hmem, hmin⟩ := selectMin_spec hsel
  have hnc : ∀ c ∈ cl, c.pos ≠ cur.pos :=
    fun c hc => (inv.oinv.disj cur hmem c hc).symm
  obtain ⟨q, hq, hineq⟩ := astar_key inv hw hnc
  have hf := hmin q hq
  have h1 : cur.h = heur cur.pos t := inv.oinv.hOK cur hmem
  have h2 : q.h = heur q.pos t := inv.oinv.hOK q hq
  have hf' : cur.g + heur cur.pos t ≤ q.g + heur q.pos t := by
    simpa [Node.f, h1, h2] using hf
  omega

/-- Preservation of the loop invariant by one iteration: popping the
minimum-`f` node, closing it, and expanding its neighbours. -/
theorem astar_step_inv {g : Grid} {s t : Pos} {ol cl : List Node} {cur : Node}
    (inv : AInv g s t ol cl) (hsel : selectMin ol = some cur) :
    AInv g s t
      (expand g t cur (cl ++ [cur]) (ol.eraseP (fun n => n.pos == cur.pos)))
      (cl ++ [cur]) := by
  obtain ⟨hmem, hmin⟩ := selectMin_spec hsel
  have hcw : WalkN g s cur.g cur.pos := inv.oinv.gW cur hmem
  have hcm : cur ∈ cl ++ [cur] := List.mem_append.mpr (Or.inr (by simp))
  have hcurcl : ∀ c ∈ cl, cur.pos ≠ c.pos := inv.oinv.disj cur hmem
  have herase := fun {x : Node} => eraseP_key_mem_iff inv.oinv.nodup hmem (x := x)
  have hne_pos : ∀ x ∈ ol, x ≠ cur → x.pos ≠ cur.pos := by
    intro x hx hne he
    exact hne (map_nodup_unique inv.oinv.nodup hx hmem he)
  have H2 : OpenInv g s t (cl ++ [cur]) (ol.eraseP (fun n => n.pos == cur.pos)) := by
    constructor
    · exact List.Nodup.sublist (List.Sublist.map Node.pos (List.eraseP_sublist ol))
        inv.oinv.nodup
    · intro x hx
      exact inv.oinv.hOK x (herase.mp hx).1
    · intro x hx
      exact inv.oinv.inb x (herase.mp hx).1
    · intro x hx
      exact inv.oinv.wk x (herase.mp hx).1
    · intro x hx
      exact inv.oinv.gW x (herase.mp hx).1
    · intro x hx
      obtain ⟨hx', -⟩ := herase.mp hx
      refine ⟨(inv.oinv.par x hx').1, ?_⟩
      intro pp hpp
      obtain ⟨m, hm, hrest⟩ := (inv.oinv.par x hx').2 pp hpp
      exact ⟨m, List.mem_append.mpr (Or.inl hm), hrest⟩
    · intro x hx c hc
      obtain ⟨hx', hne⟩ := herase.mp hx
      rcases List.mem_append.mp hc with h | h
      · exact inv.oinv.disj x hx' c h
      · simp only [List.mem_cons, List.not_mem_nil, or_false] at h
        subst h
        exact hne_pos x hx' hne
  obtain ⟨HE, monoE, covE⟩ := expand_inv hcw hcm H2
  have hmono2 : ∀ x ∈ ol, x ≠ cur →
      ∃ x' ∈ expand g t cur (cl ++ [cur]) (ol.eraseP (fun n => n.pos == cur.pos)),
        x'.pos = x.pos ∧ x'.g ≤ x.g := by
    intro x hx hne
    exact monoE x (herase.mpr ⟨hx, hne⟩)
  constructor
  · exact HE
  · rw [List.map_append]
    refine List.Nodup.append inv.clNodup (by simp) ?_
    intro a ha hb
    simp only [List.map_cons, List.map_nil, List.mem_cons, List.not_mem_nil,
      or_false] at hb
    rcases List.mem_map.mp ha with ⟨c, hc, rfl⟩
    exact hcurcl c hc hb.symm
  · intro x hx
    rcases List.mem_append.mp hx with h | h
    · exact inv.clInb x h
    · simp only [List.mem_cons, List.not_mem_nil, or_false] at h
      subst h
      exact inv.oinv.inb x hmem
  · intro x hx
    rcases List.mem_append.mp hx with h | h
    · exact inv.clWk x h
    · simp only [List.mem_cons, List.not_mem_nil, or_false] at h
      subst h
      exact inv.oinv.wk x hmem
  · intro x hx
    rcases List.mem_append.mp hx with h | h
    · exact inv.clGW x h
    · simp only [List.mem_cons, List.not_mem_nil, or_false] at h
      subst h
      exact hcw
  · intro x hx
    rcases List.mem_append.mp hx with h | h
    · exact inv.clOpt x h
    · simp only [List.mem_cons, List.not_mem_nil, or_false] at h
      subst h
      exact astar_pop inv hsel
  · intro x hx v hstep
    rcases List.mem_append.mp hx with h | h
    · obtain ⟨q, hq, hqv, hqg⟩ := inv.clClo x h v hstep
      rcases hq with hqol | hqcl
      · by_cases hqcur : q = cur
        · subst hqcur
          exact ⟨q, Or.inr hcm, hqv, hqg⟩
        · obtain ⟨q', hq', hp', hg'⟩ := hmono2 q hqol hqcur
          exact ⟨q', Or.inl hq', hp'.trans hqv, le_trans hg' hqg⟩
      · exact ⟨q, Or.inr (List.mem_append.mpr (Or.inl hqcl)), hqv, hqg⟩
    · simp only [List.mem_cons, List.not_mem_nil, or_false] at h
      subst h
      by_cases hv : ∃ c ∈ cl ++ [x], c.pos = v
      · obtain ⟨c, hc, hcp⟩ := hv
        rcases List.mem_append.mp hc with h' | h'
        · have : c.g ≤ x.g + 1 :=
            inv.clOpt c h' (x.g + 1) (hcp ▸ WalkN.succ hcw hstep)
          exact ⟨c, Or.inr (List.mem_append.mpr (Or.inl h')), hcp, this⟩
        · simp only [List.mem_cons, List.not_mem_nil, or_false] at h'
          subst h'
          exact absurd hcp.symm (stepTo_ne hstep)
      · push_neg at hv
        obtain ⟨q, hq, hqp, hqg⟩ :=
          covE v hstep.1 hstep.2 (fun c hc => (hv c hc).symm ∘ Eq.symm)
        exact ⟨q, Or.inl hq, hqp, hqg⟩
  · obtain ⟨q, hq, hqs, hq0⟩ := inv.start
    rcases hq with hqol | hqcl
    · by_cases hqcur : q = cur
      · subst hqcur
        exact ⟨q, Or.inr hcm, hqs, hq0⟩
      · obtain ⟨q', hq', hp', hg'⟩ := hmono2 q hqol hqcur
        exact ⟨q', Or.inl hq', hp'.trans hqs, by omega⟩
    · exact ⟨q, Or.inr (List.mem_append.mpr (Or.inl hqcl)), hqs, hq0⟩
  · intro x hx
    rcases List.mem_append.mp hx with h | h
    · refine ⟨(inv.clPar x h).1, ?_⟩
      intro pp hpp
      obtain ⟨m, hm, hrest⟩ := (inv.clPar x h).2 pp hpp
      exact ⟨m, List.mem_append.mpr (Or.inl hm), hrest⟩
    · simp only [List.mem_cons, List.not_mem_nil, or_false] at h
      subst h
      refine ⟨(inv.oinv.par x hmem).1, ?_⟩
      intro pp hpp
      obtain ⟨m, hm, hrest⟩ := (inv.oinv.par x hmem).2 pp hpp
      exact ⟨m, List.mem_append.mpr (Or.inl hm), hrest⟩

/-- Correctness of path reconstruction: starting from a closed node whose
cost is `k`, walking the parent chain produces a list of `k + 1` positions
from `s` to the node's position, consecutive positions being traversal steps,
and position `i` of the list being held by a closed node of cost `i`. -/
theorem buildPath_spec {g : Grid} {s : Pos} {cl : List Node}
    (hnd : (cl.map Node.pos).Nodup)
    (hpar : ∀ x ∈ cl, (x.parent = none → x.pos = s ∧ x.g = 0) ∧
      ∀ pp, x.parent = some pp →
        ∃ m ∈ cl, m.pos = pp ∧ m.g + 1 = x.g ∧ stepTo g m.pos x.pos) :
    ∀ (k : Nat) (n : Node), n ∈ cl → n.g = k →
      (buildPath cl k n).length = k + 1 ∧
      (buildPath cl k n).head? = some s ∧
      (buildPath cl k n).getLast? = some n.pos ∧
      List.Chain' (stepTo g) (buildPath cl k n) ∧
      (∀ i q, (buildPath cl k n)[i]? = some q → ∃ x ∈ cl, x.pos = q ∧ x.g = i) := by
  intro k
  induction k with
  | zero =>
    intro n hn hg
    have hps : n.pos = s := by
      match hp : n.parent with
      | none => exact ((hpar n hn).1 hp).1
      | some pp =>
        obtain ⟨m, hm, -, hmg, -⟩ := (hpar n hn).2 pp hp
        omega
    refine ⟨rfl, by simp [buildPath, hps], by simp [buildPath], by
      simp [buildPath, List.chain'_singleton], ?_⟩
    intro i q hq
    simp only [buildPath] at hq
    match i with
    | 0 =>
      simp only [List.getElem?_cons_zero] at hq
      exact ⟨n, hn, Option.some.inj hq, hg⟩
    | i + 1 => simp at hq
  | succ k ihk =>
    intro n hn hg
    match hp : n.parent with
    | none =>
      have := ((hpar n hn).1 hp).2
      omega
    | some pp =>
      obtain ⟨m, hm, hmp, hmg, hms⟩ := (hpar n hn).2 pp hp
      have hmk : m.g = k := by omega
      have hfind : cl.find? (fun q => q.pos == pp) = some m := by
        subst hmp
        exact find?_pos_eq hnd hm
      have hbuild : buildPath cl (k + 1) n = buildPath cl k m ++ [n.pos] := by
        simp [buildPath, hp, hfind]
      obtain ⟨ihlen, ihhead, ihlast, ihchain, ihidx⟩ := ihk m hm hmk
      rw [hbuild]
      have hlast2 : (buildPath cl k m ++ [n.pos]).getLast? = some n.pos := by
        simp [List.getLast?_append]
      refine ⟨by simp [ihlen], ?_, hlast2, ?_, ?_⟩
      · rw [List.head?_append, ihhead]
        rfl
      · rw [List.chain'_append]
        refine ⟨ihchain, List.chain'_singleton _, ?_⟩
        intro x hx y hy
        simp only [List.head?_cons, Option.mem_def, Option.some.injEq] at hy
        rw [ihlast] at hx
        simp only [Option.mem_def, Option.some.injEq] at hx
        subst hx; subst hy
        exact hms
      · intro i q hq
        by_cases hi : i < (buildPath cl k m).length
        · rw [List.getElem?_append_left hi] at hq
          exact ihidx i q hq
        · push_neg at hi
          rw [List.getElem?_append_right hi] at hq
          have hi2 : i = k + 1 := by
            rw [ihlen] at hi
            match hd : i - (buildPath cl k m).length with
            | 0 =>
              rw [ihlen] at hd
              omega
            | d + 1 =>
              rw [hd] at hq
              simp at hq
          have hd0 : i - (buildPath cl k m).length = 0 := by
            rw [ihlen]; omega
          rw [hd0] at hq
          simp only [List.getElem?_cons_zero] at hq
          exact ⟨n, hn, Option.some.inj hq, by omega⟩

/-- Nodup of a reconstructed path, from the index characterisation: position
`i` is held by a closed node of cost `i`, and closed keys are distinct. -/
theorem buildPath_nodup {cl : List Node} (hnd : (cl.map Node.pos).Nodup)
    {l : List Pos}
    (hidx : ∀ i q, l[i]? = some q → ∃ x ∈ cl, x.pos = q ∧ x.g = i) :
    l.Nodup := by
  rw [List.nodup_iff_injective_get]
  intro i j hij
  have hi : l[(i : Nat)]? = some (l.get i) := by
    rw [List.getElem?_eq_getElem i.isLt]
    rfl
  have hj : l[(j : Nat)]? = some (l.get j) := by
    rw [List.getElem?_eq_getElem j.isLt]
    rfl
  obtain ⟨x, hx, hxp, hxg⟩ := hidx i (l.get i) hi
  obtain ⟨y, hy, hyp, hyg⟩ := hidx j (l.get j) hj
  have hxy : x = y := map_nodup_unique hnd hx hy (by rw [hxp, hyp, hij])
  have hgg : (i : Nat) = (j : Nat) := by rw [← hxg, hxy, hyg]
  exact Fin.ext hgg

/-- Main correctness of the A* loop: assuming the invariant, a target not yet
closed, and enough fuel, any returned path is a genuine walk from `s` to `t`
of minimal length, and a path is returned whenever `t` is reachable. -/
theorem astarLoop_spec {g : Grid} {s t : Pos} :
    ∀ (fuel : Nat) (ol cl : List Node), AInv g s t ol cl →
      (∀ c ∈ cl, c.pos ≠ t) →
      gridWidth g * gridHeight g + 1 ≤ fuel + cl.length →
      (∀ p, astarLoop g t fuel ol cl = some p →
        p.head? = some s ∧ p.getLast? = some t ∧ List.Chain' (stepTo g) p ∧
        p.Nodup ∧ (∀ q ∈ p, q = s ∨ isWalkable q g = true) ∧
        WalkN g s (p.length - 1) t ∧ (∀ m, WalkN g s m t → p.length ≤ m + 1)) ∧
      (Reach g s t → astarLoop g t fuel ol cl ≠ none) := by
  intro fuel
  induction fuel with
  | zero =>
    intro ol cl inv hnt hfuel
    exfalso
    have hlen : cl.length ≤ gridWidth g * gridHeight g := by
      have hb : ∀ p ∈ cl.map Node.pos, isInBounds p g = true := by
        intro p hp
        rcases List.mem_map.mp hp with ⟨x, hx, rfl⟩
        exact inv.clInb x hx
      have := length_le_area inv.clNodup hb
      simpa using this
    omega
  | succ fuel ih =>
    intro ol cl inv hnt hfuel
    match hsel : selectMin ol with
    | none =>
      have hres : astarLoop g t (fuel + 1) ol cl = none := by
        simp [astarLoop, hsel]
      have hol : ol = [] := selectMin_eq_none hsel
      constructor
      · intro p hp
        rw [hres] at hp
        cases hp
      · rintro ⟨n, hw⟩ -
        obtain ⟨q, hq, -⟩ := astar_key inv hw hnt
        rw [hol] at hq
        cases hq
    | some cur =>
      obtain ⟨hmem, -⟩ := selectMin_spec hsel
      have inv2 := astar_step_inv inv hsel
      have hcm : cur ∈ cl ++ [cur] := List.mem_append.mpr (Or.inr (by simp))
      by_cases hct : cur.pos = t
      · have hres : astarLoop g t (fuel + 1) ol cl =
            some (buildPath (cl ++ [cur]) cur.g cur) := by
          simp [astarLoop, hsel, hct]
        constructor
        · intro p hp
          rw [hres] at hp
          obtain rfl : p = buildPath (cl ++ [cur]) cur.g cur :=
            (Option.some.inj hp).symm
          obtain ⟨hlen, hhead, hlast, hchain, hidx⟩ :=
            buildPath_spec inv2.clNodup inv2.clPar cur.g cur hcm rfl
          have hnodup := buildPath_nodup inv2.clNodup hidx
          refine ⟨hhead, by rw [hlast, hct], hchain, hnodup, ?_, ?_, ?_⟩
          · intro q hq
            obtain ⟨i, hi⟩ := List.mem_iff_getElem?.mp hq
            obtain ⟨x, hx, hxp, -⟩ := hidx i q hi
            rcases inv2.clWk x hx with h | h
            · exact Or.inl (by rw [← hxp, h])
            · exact Or.inr (hxp ▸ h)
          · rw [hlen]
            simpa using hct ▸ inv2.clGW cur hcm
          · intro m hw
            have := astar_pop inv hsel m (hct ▸ hw)
            omega
        · intro hr h
          rw [hres] at h
          cases h
      · have hres : astarLoop g t (fuel + 1) ol cl =
            astarLoop g t fuel
              (expand g t cur (cl ++ [cur])
                (ol.eraseP (fun n => n.pos == cur.pos)))
              (cl ++ [cur]) := by
          simp [astarLoop, hsel, hct]
        have hnt2 : ∀ c ∈ cl ++ [cur], c.pos ≠ t := by
          intro c hc
          rcases List.mem_append.mp hc with h | h
          · exact hnt c h
          · simp only [List.mem_cons, List.not_mem_nil, or_false] at h
            subst h
            exact hct
        have hfuel2 : gridWidth g * gridHeight g + 1 ≤
            fuel + (cl ++ [cur]).length := by
          simp only [List.length_append, List.length_cons, List.length_nil]
          omega
        obtain ⟨ihs, ihc⟩ := ih _ _ inv2 hnt2 hfuel2
        rw [hres]
        exact ⟨ihs, ihc⟩

/-- The invariant holds initially: open set is the start node, closed set is
empty. -/
theorem initial_inv {g : Grid} {s t : Pos} (hs : isInBounds s g = true) :
    AInv g s t [startNode s t] [] := by
  constructor
  · constructor
    · simp
    · intro x hx
      simp only [List.mem_cons, List.not_mem_nil, or_false] at hx
      subst hx; rfl
    · intro x hx
      simp only [List.mem_cons, List.not_mem_nil, or_false] at hx
      subst hx; exact hs
    · intro x hx
      simp only [List.mem_cons, List.not_mem_nil, or_false] at hx
      subst hx; exact Or.inl rfl
    · intro x hx
      simp only [List.mem_cons, List.not_mem_nil, or_false] at hx
      subst hx; exact WalkN.zero
    · intro x hx
      simp only [List.mem_cons, List.not_mem_nil, or_false] at hx
      subst hx
      exact ⟨fun _ => ⟨rfl, rfl⟩, fun pp hpp => nomatch hpp⟩
    · intro x hx c hc
      cases hc
  · simp
  · intro x hx; cases hx
  · intro x hx; cases hx
  · intro x hx; cases hx
  · intro x hx; cases hx
  · intro x hx; cases hx
  · exact ⟨startNode s t, Or.inl (by simp), rfl, rfl⟩
  · intro x hx; cases hx

/-- Unfolding of `findPath` once all three guards pass. -/
theorem findPath_eq_loop {s t : Pos} {g : Grid} (hs : isInBounds s g = true)
    (ht : isInBounds t g = true) (hw : isWalkable t g = true) :
    findPath s t g =
      astarLoop g t (gridWidth g * gridHeight g + 1) [startNode s t] [] := by
  simp [findPath, hs, ht, hw]

/-- Soundness and completeness of `findPath` after the guards, instantiating
the loop specification at the initial state. -/
theorem findPath_spec {s t : Pos} {g : Grid} (hs : isInBounds s g = true)
    (ht : isInBounds t g = true) (hw : isWalkable t g = true) :
    (∀ p, findPath s t g = some p →
      p.head? = some s ∧ p.getLast? = some t ∧ List.Chain' (stepTo g) p ∧
      p.Nodup ∧ (∀ q ∈ p, q = s ∨ isWalkable q g = true) ∧
      WalkN g s (p.length - 1) t ∧ (∀ m, WalkN g s m t → p.length ≤ m + 1)) ∧
    (Reach g s t → findPath s t g ≠ none) := by
  rw [findPath_eq_loop hs ht hw]
  exact astarLoop_spec (gridWidth g * gridHeight g + 1) [startNode s t] []
    (initial_inv hs) (by simp) (by simp)

/-- When `findPath` returns a path, all three entry guards were passed and the
result comes from the loop. -/
theorem findPath_some_guards {s t : Pos} {g : Grid} {p : List Pos}
    (h : findPath s t g = some p) :
    isInBounds s g = true ∧ isInBounds t g = true ∧ isWalkable t g = true := by
  by_cases hs : isInBounds s g = true
  · by_cases ht : isInBounds t g = true
    · by_cases hw : isWalkable t g = true
      · exact ⟨hs, ht, hw⟩
      · rw [findPath, if_neg (by simp [hs, ht]), if_pos (by simp [hw])] at h
        cases h
    · rw [findPath, if_pos (by simp [ht])] at h
      cases h
  · rw [findPath, if_pos (by simp [hs])] at h
    cases h

/-- The independent breadth-first reachability sets: `ball g s n` lists every
position reachable from `s` in at most `n` traversal steps. -/
def ball (g : Grid) (s : Pos) : Nat → List Pos
  | 0 => [s]
  | n + 1 =>
      let b := ball g s n
      (b ++ b.flatMap (fun p =>
        (nbrsAll p).filter (fun q => isInBounds q g && isWalkable q g))).dedup

theorem mem_ball {g : Grid} {s : Pos} :
    ∀ (n : Nat) (p : Pos), p ∈ ball g s n ↔ ∃ m ≤ n, WalkN g s m p := by
  intro n
  induction n with
  | zero =>
    intro p
    constructor
    · intro hp
      simp only [ball, List.mem_cons, List.not_mem_nil, or_false] at hp
      exact ⟨0, le_rfl, hp ▸ WalkN.zero⟩
    · rintro ⟨m, hm, hw⟩
      interval_cases m
      cases hw
      simp [ball]
  | succ n ihn =>
    intro p
    simp only [ball, List.mem_dedup, List.mem_append, List.mem_flatMap,
      List.mem_filter]
    constructor
    · rintro (hp | ⟨q, hq, hnb, hg⟩)
      · obtain ⟨m, hm, hw⟩ := (ihn p).mp hp
        exact ⟨m, by omega, hw⟩
      · obtain ⟨m, hm, hw⟩ := (ihn q).mp hq
        exact ⟨m + 1, by omega, WalkN.succ hw ⟨hnb, hg⟩⟩
    · rintro ⟨m, hm, hw⟩
      cases hw with
      | zero => exact Or.inl ((ihn s).mpr ⟨0, Nat.zero_le n, WalkN.zero⟩)
      | @succ m' u v hw' hstep =>
        refine Or.inr ⟨u, (ihn u).mpr ⟨m', by omega, hw'⟩, hstep.1, hstep.2⟩

/-- Linear scan for the first radius at which the target enters the
reachability ball; this is the breadth-first shortest-distance computation. -/
def firstBall (g : Grid) (s t : Pos) : Nat → Nat → Option Nat
  | 0, _ => none
  | fuel + 1, n =>
      if t ∈ ball g s n then some n else firstBall g s t fuel (n + 1)

theorem firstBall_spec {g : Grid} {s t : Pos} :
    ∀ (fuel n d : Nat), firstBall g s t fuel n = some d →
      n ≤ d ∧ t ∈ ball g s d ∧ ∀ m, n ≤ m → m < d → t ∉ ball g s m := by
  intro fuel
  induction fuel with
  | zero => intro n d h; cases h
  | succ fuel ih =>
    intro n d h
    by_cases hc : t ∈ ball g s n
    · rw [firstBall, if_pos hc] at h
      obtain rfl : n = d := Option.some.inj h
      exact ⟨le_rfl, hc, fun m h1 h2 => absurd (le_antisymm (by omega) h1) (by omega)⟩
    · rw [firstBall, if_neg hc] at h
      obtain ⟨h1, h2, h3⟩ := ih (n + 1) d h
      refine ⟨by omega, h2, ?_⟩
      intro m hm1 hm2
      rcases Nat.eq_or_lt_of_le hm1 with rfl | hlt
      · exact hc
      · exact h3 m (by omega) hm2

/-- The independent breadth-first shortest-distance: the least number of
traversal steps from `s` to `t`, or `none` when `t` is not reachable within
the number of grid cells (hence not at all). -/
def bfsDist (g : Grid) (s t : Pos) : Option Nat :=
  firstBall g s t (gridWidth g * gridHeight g + 2) 0

/-- Orthogonal adjacency of two positions: they differ by exactly one in
exactly one coordinate. -/
def orthAdj (a b : Pos) : Prop :=
  (b.x - a.x).natAbs + (b.y - a.y).natAbs = 1

instance (a b : Pos) : Decidable (orthAdj a b) := by
  unfold orthAdj; infer_instance

theorem stepTo_orthAdj {g : Grid} {u v : Pos} (h : stepTo g u v) : orthAdj u v := by
  unfold orthAdj
  rcases stepTo_adjacent h with ⟨hx, hy⟩ | ⟨hx, hy⟩ | ⟨hx, hy⟩ | ⟨hx, hy⟩ <;>
    rw [hx, hy] <;> omega

/-- Claim C1: for every grid and every pair of positions `s`, `t` with `s` in
bounds and `t` an empty cell connected to `s` (connectivity and the true
shortest distance `d` computed by the independent breadth-first search
`bfsDist`), `findPath` returns a sequence of `d + 1` positions, i.e. its
length equals the true shortest-path length in steps. -/
theorem claim_C1_findPath_optimal {s t : Pos} {g : Grid} {d : Nat}
    (hs : isInBounds s g = true) (ht : cellAt g t = Cell.empty)
    (hd : bfsDist g s t = some d) :
    ∃ p, findPath s t g = some p ∧ p.length = d + 1 := by
  obtain ⟨-, hmem, hmin⟩ := firstBall_spec _ _ _ hd
  obtain ⟨m, hm, hwalk⟩ := (mem_ball _ _).mp hmem
  have htb : isInBounds t g = true := by
    cases hwalk with
    | zero => exact hs
    | succ hw' hstep => exact (stepTo_walkable hstep).1
  have htw : isWalkable t g = true := by simp [isWalkable, ht]
  have hspec := findPath_spec hs htb htw
  match hp : findPath s t g with
  | none => exact absurd hp (hspec.2 ⟨m, hwalk⟩)
  | some p =>
    obtain ⟨hhead, -, -, -, -, hw1, hopt⟩ := hspec.1 p hp
    refine ⟨p, rfl, ?_⟩
    have h1 : p.length ≤ m + 1 := hopt m hwalk
    have hlen1 : 1 ≤ p.length := by
      cases p with
      | nil => cases hhead
      | cons a l => simp
    by_cases hlt : p.length - 1 < d
    · exact absurd ((mem_ball _ _).mpr ⟨p.length - 1, le_rfl, hw1⟩)
        (hmin (p.length - 1) (Nat.zero_le _) hlt)
    · omega

/-- Claim C2: `findPath` returns `none` exactly when the start or target is
out of bounds, the target cell is not empty, or the target is unreachable
from the start through 4-connected empty cells. -/
theorem claim_C2_findPath_none_iff (s t : Pos) (g : Grid) :
    findPath s t g = none ↔
      (isInBounds s g = false ∨ isInBounds t g = false ∨
        cellAt g t ≠ Cell.empty ∨ ¬ Reach g s t) := by
  by_cases hs : isInBounds s g = true
  · by_cases ht : isInBounds t g = true
    · by_cases hw : isWalkable t g = true
      · have hspec := findPath_spec hs ht hw
        constructor
        · intro hnone
          refine Or.inr (Or.inr (Or.inr ?_))
          intro hr
          exact hspec.2 hr hnone
        · rintro (h | h | h | h)
          · rw [hs] at h; cases h
          · rw [ht] at h; cases h
          · exact absurd (by simpa [isWalkable] using hw) h
          · match hp : findPath s t g with
            | none => rfl
            | some p =>
              obtain ⟨-, -, -, -, -, hw1, -⟩ := hspec.1 p hp
              exact absurd ⟨p.length - 1, hw1⟩ h
      · constructor
        · intro _
          refine Or.inr (Or.inr (Or.inl ?_))
          intro he
          exact hw (by simp [isWalkable, he])
        · intro _
          rw [findPath, if_neg (by simp [hs, ht]), if_pos (by simp [hw])]
    · constructor
      · intro _
        exact Or.inr (Or.inl (by simpa using ht))
      · intro _
        rw [findPath, if_pos (by simp [ht])]
  · constructor
    · intro _
      exact Or.inl (by simpa using hs)
    · intro _
      rw [findPath, if_pos (by simp [hs])]

/-- Claim C7: every path returned by `findPath` consists of orthogonally
adjacent consecutive positions with no repeats, starts at `s`, ends at `t`,
and every cell on it except possibly `s` is tagged empty. -/
theorem claim_C7_findPath_sound {s t : Pos} {g : Grid} {p : List Pos}
    (h : findPath s t g = some p) :
    List.Chain' orthAdj p ∧ p.Nodup ∧ p.head? = some s ∧ p.getLast? = some t ∧
      ∀ q ∈ p, q ≠ s → cellAt g q = Cell.empty := by
  obtain ⟨hs, ht, hw⟩ := findPath_some_guards h
  obtain ⟨hhead, hlast, hchain, hnodup, hcells, -, -⟩ :=
    (findPath_spec hs ht hw).1 p h
  refine ⟨List.Chain'.imp (fun a b hab => stepTo_orthAdj hab) hchain,
    hnodup, hhead, hlast, ?_⟩
  intro q hq hqs
  rcases hcells q hq with h' | h'
  · exact absurd h' hqs
  · simpa [isWalkable] using h'

/-- Claim C10: for an in-bounds empty start cell, `findPath` from the cell to
itself returns the single-element path containing just that cell. -/
theorem claim_C10_findPath_self {s : Pos} {g : Grid}
    (h1 : isInBounds s g = true) (h2 : cellAt g s = Cell.empty) :
    findPath s s g = some [s] := by
  have hw : isWalkable s g = true := by simp [isWalkable, h2]
  rw [findPath_eq_loop h1 h1 hw]
  simp [astarLoop, selectMin, selMinStep, startNode, buildPath]

theorem contains_iff {l : List Pos} {p : Pos} : l.contains p = true ↔ p ∈ l := by
  simp [List.contains]

theorem band_elim {a b : Bool} (h : (a && b) = true) : a = true ∧ b = true := by
  simp only [Bool.and_eq_true] at h
  exact h

/-- Effect of processing all neighbour candidates of one dequeued cell: the
visited list and the queue are both extended by the same fresh block of
positions, each fresh position is an unvisited traversal-step target, and
every walkable in-bounds candidate ends up visited. -/
theorem floodFold_spec {g : Grid} {q : Pos} :
    ∀ (l : List Pos), (∀ np ∈ l, np ∈ nbrsAll q) → ∀ (vis qs : List Pos),
      ∃ newl,
        l.foldl (floodStepF g) (vis, qs) = (vis ++ newl, qs ++ newl) ∧
        newl.Nodup ∧
        (∀ p ∈ newl, p ∉ vis ∧ stepTo g q p) ∧
        (∀ v ∈ l, (isInBounds v g && isWalkable v g) = true →
          v ∈ vis ∨ v ∈ newl) := by
  intro l
  induction l with
  | nil =>
    intro hsub vis qs
    exact ⟨[], by simp, by simp, by simp, by simp⟩
  | cons np rest ih =>
    intro hsub vis qs
    simp only [List.foldl_cons]
    by_cases hc : (isInBounds np g && isWalkable np g && !(vis.contains np)) = true
    · have hstf : floodStepF g (vis, qs) np = (vis ++ [np], qs ++ [np]) := by
        simp only [floodStepF, hc, if_true]
      rw [hstf]
      obtain ⟨newl', heq, hnd, hprops, hcov⟩ :=
        ih (fun x hx => hsub x (List.mem_cons_of_mem _ hx)) (vis ++ [np]) (qs ++ [np])
      simp only [Bool.and_eq_true, Bool.not_eq_true'] at hc
      have hnpvis : np ∉ vis := by
        intro hmem
        rw [(by simpa [contains_iff] using hmem : vis.contains np = true)] at hc
        exact absurd hc.2 (by simp)
      have hguard : (isInBounds np g && isWalkable np g) = true := by
        simp [hc.1.1, hc.1.2]
      have hstep : stepTo g q np := ⟨hsub np (List.mem_cons_self _ _), hguard⟩
      refine ⟨np :: newl', ?_, ?_, ?_, ?_⟩
      · rw [heq]
        simp
      · refine List.nodup_cons.mpr ⟨?_, hnd⟩
        intro hmem
        exact (hprops np hmem).1 (List.mem_append.mpr (Or.inr (by simp)))
      · intro p hp
        rcases List.mem_cons.mp hp with rfl | hp'
        · exact ⟨hnpvis, hstep⟩
        · obtain ⟨hnv, hst⟩ := hprops p hp'
          exact ⟨fun hmem => hnv (List.mem_append.mpr (Or.inl hmem)), hst⟩
      · intro v hv hg
        rcases List.mem_cons.mp hv with rfl | hv'
        · exact Or.inr (by simp)
        · rcases hcov v hv' hg with h | h
          · rcases List.mem_append.mp h with h' | h'
            · exact Or.inl h'
            · simp only [List.mem_cons, List.not_mem_nil, or_false] at h'
              exact Or.inr (by simp [h'])
          · exact Or.inr (List.mem_cons_of_mem _ h)
    · have hstf : floodStepF g (vis, qs) np = (vis, qs) := by
        unfold floodStepF
        rw [if_neg hc]
      rw [hstf]
      obtain ⟨newl, heq, hnd, hprops, hcov⟩ :=
        ih (fun x hx => hsub x (List.mem_cons_of_mem _ hx)) vis qs
      refine ⟨newl, heq, hnd, hprops, ?_⟩
      intro v hv hg
      rcases List.mem_cons.mp hv with rfl | hv'
      · left
        rw [hg] at hc
        simp only [Bool.true_and, Bool.not_eq_true'] at hc
        cases hcv : vis.contains v with
        | false => exact absurd hcv hc
        | true => exact contains_iff.mp hcv
      · exact hcov v hv' hg

/-- Invariant of the flood-fill loop of `findAllReachablePositions`. -/
structure FInv (g : Grid) (s : Pos) (queue vis acc : List Pos) : Prop where
  visPerm : ∀ p, p ∈ vis ↔ p ∈ acc ++ queue
  nd : (acc ++ queue).Nodup
  visNd : vis.Nodup
  reach : ∀ p ∈ vis, Reach g s p
  wk : ∀ p ∈ vis, p = s ∨ (isInBounds p g && isWalkable p g) = true
  accClosed : ∀ p ∈ acc, ∀ v, stepTo g p v → v ∈ vis

/-- Main lemma for the flood fill: with the invariant and enough fuel, the
returned list contains the visited positions, all its members are reachable,
and it is closed under traversal steps. -/
theorem floodLoop_spec {g : Grid} {s : Pos} (hs : isInBounds s g = true) :
    ∀ (fuel : Nat) (queue vis acc : List Pos), FInv g s queue vis acc →
      queue.length + (gridWidth g * gridHeight g - vis.length) < fuel →
      (∀ p ∈ vis, p ∈ floodLoop g fuel queue vis acc) ∧
      (∀ p ∈ floodLoop g fuel queue vis acc,
        Reach g s p ∧ (p = s ∨ (isInBounds p g && isWalkable p g) = true)) ∧
      (∀ p ∈ floodLoop g fuel queue vis acc, ∀ v, stepTo g p v →
        v ∈ floodLoop g fuel queue vis acc) := by
  intro fuel
  induction fuel with
  | zero =>
    intro queue vis acc inv hfuel
    omega
  | succ fuel ih =>
    intro queue vis acc inv hfuel
    match queue with
    | [] =>
      have hres : floodLoop g (fuel + 1) [] vis acc = acc := rfl
      rw [hres]
      have hacc : ∀ p, p ∈ vis ↔ p ∈ acc := by
        intro p
        rw [inv.visPerm p]
        simp
      refine ⟨fun p hp => (hacc p).mp hp, ?_, ?_⟩
      · intro p hp
        have hv := (hacc p).mpr hp
        exact ⟨inv.reach p hv, inv.wk p hv⟩
      · intro p hp v hstep
        exact (hacc v).mp (inv.accClosed p hp v hstep)
    | q :: qs =>
      have hvismem : ∀ p ∈ vis, isInBounds p g = true := by
        intro p hp
        rcases inv.wk p hp with rfl | h
        · exact hs
        · exact (band_elim h).1
      have hvislen : vis.length ≤ gridWidth g * gridHeight g :=
        length_le_area inv.visNd hvismem
      have hqacc : q ∉ acc := by
        intro hmem
        have := inv.nd
        rw [List.nodup_append] at this
        exact this.2.2 hmem (by simp)
      have hacc2 : (if acc.contains q then acc else acc ++ [q]) = acc ++ [q] :=
        if_neg (fun h => hqacc (contains_iff.mp h))
      obtain ⟨newl, heq, hnewnd, hnewprops, hcov⟩ :=
        floodFold_spec (nbrsAll q) (fun x hx => hx) vis qs
      have hres : floodLoop g (fuel + 1) (q :: qs) vis acc =
          floodLoop g fuel (qs ++ newl) (vis ++ newl) (acc ++ [q]) := by
        show floodLoop g fuel (floodStep g q vis qs).2 (floodStep g q vis qs).1
            (if acc.contains q then acc else acc ++ [q]) =
          floodLoop g fuel (qs ++ newl) (vis ++ newl) (acc ++ [q])
        rw [hacc2]
        unfold floodStep
        rw [heq]
      have hq_vis : q ∈ vis := (inv.visPerm q).mpr (by simp)
      have hnewdisj : ∀ p ∈ newl, p ∉ vis := fun p hp => (hnewprops p hp).1
      have inv2 : FInv g s (qs ++ newl) (vis ++ newl) (acc ++ [q]) := by
        constructor
        · intro p
          constructor
          · intro hp
            rcases List.mem_append.mp hp with h | h
            · rcases List.mem_append.mp ((inv.visPerm p).mp h) with h' | h'
              · simp [h']
              · rcases List.mem_cons.mp h' with rfl | h''
                · simp
                · simp [h'']
            · simp [h]
          · intro hp
            simp only [List.append_assoc, List.mem_append, List.mem_cons,
              List.not_mem_nil, or_false] at hp
            rcases hp with h | h | h | h
            · exact List.mem_append.mpr (Or.inl ((inv.visPerm p).mpr (by simp [h])))
            · exact List.mem_append.mpr (Or.inl (h ▸ hq_vis))
            · exact List.mem_append.mpr
                (Or.inl ((inv.visPerm p).mpr (by simp [h])))
            · exact List.mem_append.mpr (Or.inr h)
        · have hperm0 : acc ++ [q] ++ (qs ++ newl) = (acc ++ (q :: qs)) ++ newl := by
            simp
          rw [hperm0]
          rw [List.nodup_append]
          refine ⟨inv.nd, hnewnd, ?_⟩
          intro a ha hb
          exact hnewdisj a hb ((inv.visPerm a).mpr ha)
        · rw [List.nodup_append]
          refine ⟨inv.visNd, hnewnd, ?_⟩
          intro a ha hb
          exact hnewdisj a hb ha
        · intro p hp
          rcases List.mem_append.mp hp with h | h
          · exact inv.reach p h
          · obtain ⟨-, hst⟩ := hnewprops p h
            obtain ⟨n, hw⟩ := inv.reach q hq_vis
            exact ⟨n + 1, WalkN.succ hw hst⟩
        · intro p hp
          rcases List.mem_append.mp hp with h | h
          · exact inv.wk p h
          · exact Or.inr (hnewprops p h).2.2
        · intro p hp v hstep
          rcases List.mem_append.mp hp with h | h
          · exact List.mem_append.mpr (Or.inl (inv.accClosed p h v hstep))
          · simp only [List.mem_cons, List.not_mem_nil, or_false] at h
            subst h
            rcases hcov v hstep.1 hstep.2 with h' | h'
            · exact List.mem_append.mpr (Or.inl h')
            · exact List.mem_append.mpr (Or.inr h')
      have hvis2len : (vis ++ newl).length ≤ gridWidth g * gridHeight g := by
        refine length_le_area inv2.visNd ?_
        intro p hp
        rcases inv2.wk p hp with rfl | h
        · exact hs
        · exact (band_elim h).1
      have hfuel2 : (qs ++ newl).length +
          (gridWidth g * gridHeight g - (vis ++ newl).length) < fuel := by
        simp only [List.length_append, List.length_cons] at hfuel hvis2len ⊢
        omega
      obtain ⟨ih1, ih2, ih3⟩ := ih (qs ++ newl) (vis ++ newl) (acc ++ [q]) inv2 hfuel2
      rw [hres]
      exact ⟨fun p hp => ih1 p (List.mem_append.mpr (Or.inl hp)), ih2, ih3⟩

/-- Claim C3: `findAllReachablePositions` returns exactly the empty cells
connected to the start through 4-connected empty cells, together with the
start itself (included unconditionally). -/
theorem claim_C3_reachable_exact {s : Pos} {g : Grid}
    (hs : isInBounds s g = true) :
    ∀ p, p ∈ findAllReachablePositions s g ↔
      (p = s ∨ (isInBounds p g = true ∧ cellAt g p = Cell.empty ∧ Reach g s p)) := by
  have inv0 : FInv g s [s] [s] [] := by
    constructor
    · intro p; simp
    · simp
    · simp
    · intro p hp
      simp only [List.mem_cons, List.not_mem_nil, or_false] at hp
      exact ⟨0, hp ▸ WalkN.zero⟩
    · intro p hp
      simp only [List.mem_cons, List.not_mem_nil, or_false] at hp
      exact Or.inl hp
    · intro p hp; cases hp
  have hfuel : ([s] : List Pos).length +
      (gridWidth g * gridHeight g - ([s] : List Pos).length) <
        gridWidth g * gridHeight g + 1 := by
    have : (1 : Nat) ≤ gridWidth g * gridHeight g := by
      simp only [isInBounds, Bool.and_eq_true, decide_eq_true_eq] at hs
      have h1 : 1 ≤ gridWidth g := by omega
      have h2 : 1 ≤ gridHeight g := by omega
      exact Nat.one_le_iff_ne_zero.mpr (by positivity)
    simp only [List.length_cons, List.length_nil]
    omega
  obtain ⟨h1, h2, h3⟩ :=
    floodLoop_spec hs (gridWidth g * gridHeight g + 1) [s] [s] [] inv0 hfuel
  intro p
  constructor
  · intro hp
    obtain ⟨hr, hwk⟩ := h2 p hp
    rcases hwk with rfl | h
    · exact Or.inl rfl
    · refine Or.inr ⟨(band_elim h).1, ?_, hr⟩
      have := (band_elim h).2
      simpa [isWalkable] using this
  · intro hp
    have hsR : s ∈ findAllReachablePositions s g := h1 s (by simp)
    rcases hp with rfl | ⟨-, -, n, hw⟩
    · exact hsR
    · clear hs
      induction hw with
      | zero => exact hsR
      | succ hw' hstep ihw => exact h3 _ (ihw) _ hstep
def witGrid : Grid :=
  [[Cell.wall, Cell.wall, Cell.wall, Cell.wall],
   [Cell.wall, Cell.empty, Cell.empty, Cell.wall],
   [Cell.wall, Cell.wall, Cell.empty, Cell.wall],
   [Cell.wall, Cell.wall, Cell.wall, Cell.wall]]

/-- Witness for claim C1 at a concrete grid: the breadth-first distance from
(1,1) to (2,2) is 2 and `findPath` returns a sequence of 3 positions. -/
theorem claim_C1_witness :
    isInBounds ⟨1, 1⟩ witGrid = true ∧ cellAt witGrid ⟨2, 2⟩ = Cell.empty ∧
      bfsDist witGrid ⟨1, 1⟩ ⟨2, 2⟩ = some 2 ∧
      ∃ p, findPath ⟨1, 1⟩ ⟨2, 2⟩ witGrid = some p ∧ p.length = 2 + 1 :=
  ⟨by decide, by decide, by decide,
    claim_C1_findPath_optimal (by decide) (by decide) (by decide)⟩

/-- Witness for claim C7 at a concrete grid: the returned path is sound. -/
theorem claim_C7_witness :
    List.Chain' orthAdj [(⟨1, 1⟩ : Pos), ⟨2, 1⟩, ⟨2, 2⟩] ∧
      ([(⟨1, 1⟩ : Pos), ⟨2, 1⟩, ⟨2, 2⟩]).Nodup ∧
      ([(⟨1, 1⟩ : Pos), ⟨2, 1⟩, ⟨2, 2⟩]).head? = some ⟨1, 1⟩ ∧
      ([(⟨1, 1⟩ : Pos), ⟨2, 1⟩, ⟨2, 2⟩]).getLast? = some ⟨2, 2⟩ ∧
      ∀ q ∈ [(⟨1, 1⟩ : Pos), ⟨2, 1⟩, ⟨2, 2⟩], q ≠ ⟨1, 1⟩ →
        cellAt witGrid q = Cell.empty :=
  claim_C7_findPath_sound (by decide)

/-- Witness for claim C10 at a concrete grid: `findPath` from an empty cell
to itself is the singleton path. -/
theorem claim_C10_witness :
    findPath ⟨1, 1⟩ ⟨1, 1⟩ witGrid = some [⟨1, 1⟩] :=
  claim_C10_findPath_self (by decide) (by decide)

/-- Witness for claim C3 at a concrete grid and position. -/
theorem claim_C3_witness :
    isInBounds ⟨1, 1⟩ witGrid = true ∧
      ((⟨2, 2⟩ : Pos) ∈ findAllReachablePositions ⟨1, 1⟩ witGrid ↔
        ((⟨2, 2⟩ : Pos) = ⟨1, 1⟩ ∨
          (isInBounds ⟨2, 2⟩ witGrid = true ∧
            cellAt witGrid ⟨2, 2⟩ = Cell.empty ∧ Reach witGrid ⟨1, 1⟩ ⟨2, 2⟩))) :=
  ⟨by decide, claim_C3_reachable_exact (by decide) ⟨2, 2⟩⟩

/-- Insertion into a JavaScript-style `Set` modelled as an insertion-ordered
duplicate-free list: append the element when it is not yet present. -/
def insertIfAbsent (l : List Pos) (p : Pos) : List Pos :=
  if l.contains p then l else l ++ [p]

/-- Add every element of a list to a set, in order (`Set.add` per element). -/
def addAll (s : List Pos) (l : List Pos) : List Pos :=
  l.foldl insertIfAbsent s

/-- Functional update `grid[p.y][p.x] = c` (the source copies the grid first;
the embedding is functional, so no copy is needed). -/
def gridSet (g : Grid) (p : Pos) (c : Cell) : Grid :=
  g.set p.y.toNat ((g.getD p.y.toNat []).set p.x.toNat c)

/-- First empty in-bounds cell adjacent to the door, in source direction
order (`doorAdjacentEmpty` in `identifyCriticalPaths`). -/
def doorAdjSeed (g : Grid) (door : Pos) : Option Pos :=
  (nbrsAll door).find? (fun p => isInBounds p g && isWalkable p g)

/-- All grid positions in the scan order of the source's nested loops
(row by row, each row left to right, using each row's own length). -/
def gridPositions (g : Grid) : List Pos :=
  (List.range g.length).flatMap (fun (y : Nat) =>
    (List.range (g.getD y []).length).map
      (fun (x : Nat) => (⟨(x : Int), (y : Int)⟩ : Pos)))

/-- Positions whose cell is a sofa variant, in scan order. -/
def sofaPositions (g : Grid) : List Pos :=
  (gridPositions g).filter (fun p => (cellAt g p).isSofa)

/-- Empty cells adjacent to some sofa cell, in scan order, with duplicates
kept exactly as the source pushes them. -/
def sofaAdjacentEmptyCells (g : Grid) : List Pos :=
  (sofaPositions g).flatMap (fun p =>
    (nbrsAll p).filter (fun q => isInBounds q g && isWalkable q g))

/-- Positions whose cell is empty, in scan order. -/
def emptyCells (g : Grid) : List Pos :=
  (gridPositions g).filter (fun p => cellAt g p == Cell.empty)

/-- Breadth-first collection of one connected component of sofa cells
(the inner `while` of the grouping phase); fuel bounds the number of
dequeues, which the visited set keeps below the number of grid cells. -/
def groupBfs (g : Grid) : Nat → List Pos → List Pos → List Pos →
    List Pos × List Pos
  | 0, _, vis, group => (group, vis)
  | _ + 1, [], vis, group => (group, vis)
  | fuel + 1, q :: qs, vis, group =>
      let st := (nbrsAll q).foldl
        (fun st2 adj =>
          if isInBounds adj g && (cellAt g adj).isSofa && !(st2.2.contains adj) then
            (st2.1 ++ [adj], st2.2 ++ [adj])
          else st2)
        (qs, vis)
      groupBfs g fuel st.1 st.2 (group ++ [q])

/-- Grouping of sofa cells into 4-connected components, sharing one visited
set across the scan exactly as the source does. -/
def sofaGroupsAux (g : Grid) : List Pos → List Pos → List (List Pos)
  | [], _ => []
  | p :: rest, vis =>
      if vis.contains p then sofaGroupsAux g rest vis
      else
        let st := groupBfs g (gridWidth g * gridHeight g + 2) [p] (vis ++ [p]) []
        st.1 :: sofaGroupsAux g rest st.2

/-- The sofa groups of a grid (`sofaGroups` in the source). -/
def sofaGroups (g : Grid) : List (List Pos) :=
  sofaGroupsAux g (sofaPositions g) []

/-- Empty cells adjacent to one sofa group, de-duplicated in first-encounter
order via the source's `visitedCells` set. -/
def groupAdjEmpties (g : Grid) (group : List Pos) : List Pos :=
  group.foldl
    (fun acc sp =>
      (nbrsAll sp).foldl
        (fun acc2 q =>
          if isInBounds q g && isWalkable q g && !(acc2.contains q) then
            acc2 ++ [q]
          else acc2)
        acc)
    []

/-- First pass of `identifyCriticalPaths`: for every group and every empty
cell adjacent to it, mark every cell of a shortest path from the seed. -/
def criticalPass1 (g : Grid) (seed : Pos) (groups : List (List Pos))
    (s0 : List Pos) : List Pos :=
  groups.foldl
    (fun s grp =>
      (groupAdjEmpties g grp).foldl
        (fun s2 tc =>
          match findPath seed tc g with
          | some path => addAll s2 path
          | none => s2)
        s)
    s0

/-- Reachability test of one sofa group on a hypothetical grid: some empty
in-bounds neighbour of some cell of the group admits a path from the seed. -/
def groupReachable (tg : Grid) (seed : Pos) (grp : List Pos) : Bool :=
  grp.any (fun sp =>
    (nbrsAll sp).any (fun adj =>
      isInBounds adj tg && isWalkable adj tg &&
        (findPath seed adj tg).isSome))

/-- Second pass of `identifyCriticalPaths`: an unmarked empty cell is
critical when hypothetically walling it off makes some group unreachable. -/
def criticalPass2 (g : Grid) (seed : Pos) (groups : List (List Pos))
    (empties : List Pos) (s0 : List Pos) : List Pos :=
  empties.foldl
    (fun s c =>
      if s.contains c then s
      else
        let tg := gridSet g c Cell.wall
        if groups.any (fun grp => !(groupReachable tg seed grp)) then s ++ [c]
        else s)
    s0

/-- Bounded depth-first enumeration of simple paths from the current cell to
the target (`findAllPaths` in the source); the explicit fuel mirrors the
source's recursion, which is bounded by the path-length guard. -/
def findAllPathsDFS (g : Grid) (target : Pos) (maxLen : Nat) :
    Nat → Pos → List Pos → List Pos → List (List Pos)
  | 0, _, _, _ => []
  | fuel + 1, current, visited, currentPath =>
      if current == target then [currentPath ++ [current]]
      else if currentPath.length > maxLen then []
      else
        let visited2 := insertIfAbsent visited current
        let cp2 := currentPath ++ [current]
        (nbrsAll current).foldl
          (fun acc nextPos =>
            if isInBounds nextPos g && (isWalkable nextPos g || nextPos == target)
                && !(visited2.contains nextPos) then
              acc ++ findAllPathsDFS g target maxLen fuel nextPos visited2 cp2
            else acc)
          []

/-- Third pass of `identifyCriticalPaths`: for every sofa-adjacent empty
cell, enumerate simple paths (capped at twice the shortest length, first five
kept); cells common to all enumerated paths are critical, and every cell of a
unique path is critical. -/
def criticalPass3 (g : Grid) (seed : Pos) (targets : List Pos)
    (s0 : List Pos) : List Pos :=
  targets.foldl
    (fun s tc =>
      match findPath seed tc g with
      | none => s
      | some pathToTarget =>
          let maxLen := pathToTarget.length * 2
          let allPaths := findAllPathsDFS g tc maxLen (maxLen + 2) seed [] []
          let limited := allPaths.take 5
          if limited.length > 1 then
            let keys := limited.foldl (fun acc path => addAll acc path) []
            keys.foldl
              (fun s2 q =>
                if limited.all (fun path => path.contains q) then
                  insertIfAbsent s2 q
                else s2)
              s
          else if limited.length == 1 then addAll s (limited.headD [])
          else s)
    s0

/-- Embedding of `identifyCriticalPaths`: seed detection, early exits for a
blocked door or a sofa-free grid, then the three marking passes starting from
the set containing the door-adjacent seed. -/
def identifyCriticalPaths (g : Grid) (door : Pos) : List Pos :=
  match doorAdjSeed g door with
  | none => []
  | some seed =>
      if sofaPositions g = [] then []
      else
        let groups := sofaGroups g
        let s1 := criticalPass1 g seed groups [seed]
        let s2 := criticalPass2 g seed groups (emptyCells g) s1
        criticalPass3 g seed (sofaAdjacentEmptyCells g) s2

theorem getD_mem_of_lt {α : Type} {l : List α} {i : Nat} (h : i < l.length)
    (d : α) : l.getD i d ∈ l := by
  rw [List.getD_eq_getElem l d h]
  exact List.getElem_mem h

theorem mem_gridPositions {g : Grid} {p : Pos} (hp : p ∈ gridPositions g) :
    ∃ y : Nat, y < g.length ∧ ∃ x : Nat, x < (g.getD y []).length ∧
      p = ⟨(x : Int), (y : Int)⟩ := by
  unfold gridPositions at hp
  rw [List.mem_flatMap] at hp
  obtain ⟨y, hy, hmem⟩ := hp
  rw [List.mem_range] at hy
  rw [List.mem_map] at hmem
  obtain ⟨x, hx, he⟩ := hmem
  rw [List.mem_range] at hx
  exact ⟨y, hy, x, hx, he.symm⟩

theorem cellAt_nat (g : Grid) (x y : Nat) :
    cellAt g ⟨(x : Int), (y : Int)⟩ = (g.getD y []).getD x Cell.wall := by
  simp [cellAt]

/-- Claim C9: on a grid containing no sofa cell, `identifyCriticalPaths`
returns the empty set, even when an empty cell is 4-adjacent to the door
(the sofa-free early exit fires before the seed is ever added). -/
theorem claim_C9_no_sofas_empty {g : Grid} {door : Pos}
    (h : ∀ row ∈ g, ∀ c ∈ row, c.isSofa = false) :
    identifyCriticalPaths g door = [] := by
  unfold identifyCriticalPaths
  match hseed : doorAdjSeed g door with
  | none => rfl
  | some seed =>
    have hsp : sofaPositions g = [] := by
      rw [sofaPositions, List.filter_eq_nil]
      intro p hp
      obtain ⟨y, hy, x, hx, rfl⟩ := mem_gridPositions hp
      rw [cellAt_nat]
      have hrow : g.getD y [] ∈ g := getD_mem_of_lt hy []
      have hcell : (g.getD y []).getD x Cell.wall ∈ g.getD y [] :=
        getD_mem_of_lt hx Cell.wall
      rw [h (g.getD y []) hrow _ hcell]
      simp
    simp [hsp]

theorem mem_insertIfAbsent {s : List Pos} {x : Pos} (p : Pos) (h : x ∈ s) :
    x ∈ insertIfAbsent s p := by
  unfold insertIfAbsent
  split
  · exact h
  · exact List.mem_append.mpr (Or.inl h)

theorem mem_foldl_pres {β : Type} {x : Pos} {f : List Pos → β → List Pos}
    (hf : ∀ s a, x ∈ s → x ∈ f s a) :
    ∀ (l : List β) (s : List Pos), x ∈ s → x ∈ l.foldl f s := by
  intro l
  induction l with
  | nil => intro s h; exact h
  | cons a rest ih =>
    intro s h
    exact ih (f s a) (hf s a h)

theorem mem_addAll {s : List Pos} {x : Pos} (l : List Pos) (h : x ∈ s) :
    x ∈ addAll s l :=
  mem_foldl_pres (fun s a h => mem_insertIfAbsent a h) l s h

theorem mem_criticalPass1 {g : Grid} {seed : Pos} {groups : List (List Pos)}
    {s0 : List Pos} {x : Pos} (h : x ∈ s0) :
    x ∈ criticalPass1 g seed groups s0 := by
  refine mem_foldl_pres ?_ groups s0 h
  intro s grp hs
  refine mem_foldl_pres ?_ (groupAdjEmpties g grp) s hs
  intro s2 tc hs2
  match findPath seed tc g with
  | some path => exact mem_addAll path hs2
  | none => exact hs2

theorem mem_criticalPass2 {g : Grid} {seed : Pos} {groups : List (List Pos)}
    {empties : List Pos} {s0 : List Pos} {x : Pos} (h : x ∈ s0) :
    x ∈ criticalPass2 g seed groups empties s0 := by
  refine mem_foldl_pres ?_ empties s0 h
  intro s c hs
  simp only
  split
  · exact hs
  · split
    · exact List.mem_append.mpr (Or.inl hs)
    · exact hs

theorem mem_criticalPass3 {g : Grid} {seed : Pos} {targets : List Pos}
    {s0 : List Pos} {x : Pos} (h : x ∈ s0) :
    x ∈ criticalPass3 g seed targets s0 := by
  refine mem_foldl_pres ?_ targets s0 h
  intro s tc hs
  match findPath seed tc g with
  | none => exact hs
  | some pathToTarget =>
    simp only
    split
    · refine mem_foldl_pres ?_ _ s hs
      intro s2 q hs2
      split
      · exact mem_insertIfAbsent q hs2
      · exact hs2
    · split
      · exact mem_addAll _ hs
      · exact hs

/-- Claim C4, amended: when an empty cell is 4-adjacent to the door and the
grid contains at least one sofa cell, the set returned by
`identifyCriticalPaths` contains the door-adjacent seed cell.  (Without the
sofa condition the claim fails: the sofa-free early exit returns the empty
set before the seed is added.) -/
theorem claim_C4_seed_critical {g : Grid} {door seed : Pos}
    (hseed : doorAdjSeed g door = some seed) (hsofa : sofaPositions g ≠ []) :
    seed ∈ identifyCriticalPaths g door := by
  unfold identifyCriticalPaths
  rw [hseed]
  simp only [if_neg hsofa]
  exact mem_criticalPass3 (mem_criticalPass2 (mem_criticalPass1 (by simp)))

/-- A 3 by 3 grid of empty cells with no sofas, used to refute claim C4 as
stated. -/
def cexGrid : Grid :=
  [[Cell.empty, Cell.empty, Cell.empty],
   [Cell.empty, Cell.empty, Cell.empty],
   [Cell.empty, Cell.empty, Cell.empty]]

/-- Counterexample to claim C4 as stated: on a sofa-free grid whose door at
(0,1) has the empty in-bounds neighbour (1,1) as seed, the returned set is
empty, so it does not contain the seed. -/
theorem claim_C4_counterexample :
    cellAt cexGrid ⟨1, 1⟩ = Cell.empty ∧ isInBounds ⟨1, 1⟩ cexGrid = true ∧
      (⟨1, 1⟩ : Pos) ∈ nbrsAll ⟨0, 1⟩ ∧
      doorAdjSeed cexGrid ⟨0, 1⟩ = some ⟨1, 1⟩ ∧
      identifyCriticalPaths cexGrid ⟨0, 1⟩ = [] ∧
      (⟨1, 1⟩ : Pos) ∉ identifyCriticalPaths cexGrid ⟨0, 1⟩ := by
  decide

/-- A 4 by 4 grid with one sofa cell at (2,2), used by the C4 witness. -/
def wg2 : Grid :=
  [[Cell.wall, Cell.wall, Cell.wall, Cell.wall],
   [Cell.wall, Cell.empty, Cell.empty, Cell.wall],
   [Cell.wall, Cell.empty, Cell.sofaSingle, Cell.wall],
   [Cell.wall, Cell.wall, Cell.wall, Cell.wall]]

/-- Witness for the amended claim C4 at a concrete grid with a sofa. -/
theorem claim_C4_witness :
    doorAdjSeed wg2 ⟨0, 1⟩ = some ⟨1, 1⟩ ∧ sofaPositions wg2 ≠ [] ∧
      (⟨1, 1⟩ : Pos) ∈ identifyCriticalPaths wg2 ⟨0, 1⟩ :=
  ⟨by decide, by decide, claim_C4_seed_critical (by decide) (by decide)⟩

/-- Witness for claim C9 at a concrete sofa-free grid. -/
theorem claim_C9_witness :
    (∀ row ∈ cexGrid, ∀ c ∈ row, c.isSofa = false) ∧
      identifyCriticalPaths cexGrid ⟨0, 1⟩ = [] :=
  ⟨by decide, claim_C9_no_sofas_empty (by decide)⟩

/-- Exact rational arithmetic that the kernel can evaluate: a fraction is an
integer numerator over an integer denominator, with no normalisation (the
library rationals normalise through `Nat.gcd`, which blocks definitional
evaluation).  All fractions built by the model have positive denominators. -/
structure Frac where
  num : Int
  den : Int
  deriving DecidableEq, Repr

/-- Shorthand constructor for fractions. -/
def fr (n d : Int) : Frac := ⟨n, d⟩

instance : Add Frac := ⟨fun a b => ⟨a.num * b.den + b.num * a.den, a.den * b.den⟩⟩

instance : Sub Frac := ⟨fun a b => ⟨a.num * b.den - b.num * a.den, a.den * b.den⟩⟩

instance : Mul Frac := ⟨fun a b => ⟨a.num * b.num, a.den * b.den⟩⟩

/-- Floor of a fraction (floor division is exact for positive denominators). -/
def Frac.floor (a : Frac) : Int := Int.fdiv a.num a.den

/-- Strict comparison of fractions by cross multiplication (meaningful for
positive denominators). -/
def Frac.blt (a b : Frac) : Bool := decide (a.num * b.den < b.num * a.den)

/-- Mirrors `Math.max(0, x)`. -/
def Frac.max0 (a : Frac) : Frac := if a.blt (fr 0 1) then fr 0 1 else a

/-- The rational value of a fraction. -/
def Frac.toRat (a : Frac) : ℚ := (a.num : ℚ) / (a.den : ℚ)

/-- Stream of pseudo-random draws: the ambient `Math.random()` source is
modelled as a function from draw indices to exact rationals in `[0,1)`. -/
def Rng : Type := Nat → Frac

/-- One draw: the head of the stream and the shifted remainder. -/
def draw (r : Rng) : Frac × Rng := (r 0, fun n => r (n + 1))

/-- Validity of one draw: positive denominator and value in `[0,1)`, stated
on the integer representation so that it is kernel-decidable. -/
def Frac.valid (v : Frac) : Prop := 0 < v.den ∧ 0 ≤ v.num ∧ v.num < v.den

instance (v : Frac) : Decidable v.valid := by
  unfold Frac.valid; infer_instance

/-- Validity of a draw stream: every draw valid, as `Math.random`
guarantees. -/
def ValidRng (r : Rng) : Prop := ∀ n, (r n).valid

theorem Frac.valid_toRat {v : Frac} (h : v.valid) :
    0 < v.den ∧ 0 ≤ v.toRat ∧ v.toRat < 1 := by
  obtain ⟨h1, h2, h3⟩ := h
  refine ⟨h1, ?_, ?_⟩
  · unfold Frac.toRat
    positivity
  · unfold Frac.toRat
    rw [div_lt_one (by exact_mod_cast h1)]
    exact_mod_cast h3

/-- Mirrors the source `SofaInventory` record. -/
structure SofaInventory where
  single : Nat
  rectangular : Nat
  lShaped : Nat
  deriving DecidableEq, Repr

/-- Mirrors the source `ComplexitySettings` record; the float fields become
exact fractions. -/
structure ComplexitySettings where
  width : Nat
  height : Nat
  wallDensity : Frac
  roomComplexity : Frac
  minEmptySpaces : Nat
  inventory : SofaInventory
  deriving DecidableEq, Repr

/-- Mirrors the source `GeneratedLevel` record. -/
structure GeneratedLevel where
  width : Nat
  height : Nat
  walls : List Pos
  doorPosition : Pos
  name : String
  inventory : SofaInventory
  deriving DecidableEq, Repr

/-- Derivation of the complexity settings at the head of `generateLevel`:
dimensions, wall density, minimum empty-space count and inventory, all by
the source's formulas. -/
def mkSettings (complexity : Frac) : ComplexitySettings :=
  let width := (fr 6 1 + complexity * fr 6 1).floor.toNat
  let height := (fr 6 1 + complexity * fr 6 1).floor.toNat
  let totalArea : Frac := fr ((width * height : Nat) : Int) 1
  let estimatedEmptySpaces : Frac := totalArea * fr 6 10
  let inventoryScale : Frac := fr 1 1 - complexity * fr 3 10
  { width := width
    height := height
    wallDensity := fr 1 10 + complexity * fr 2 10
    roomComplexity := complexity
    minEmptySpaces := (fr 10 1 + complexity * fr 20 1).floor.toNat
    inventory :=
      { single := max 2 ((estimatedEmptySpaces * fr 1 10) * inventoryScale).floor.toNat
        rectangular := max 1 ((estimatedEmptySpaces * fr 1 15) * inventoryScale).floor.toNat
        lShaped := max 1 ((estimatedEmptySpaces * fr 1 20) * inventoryScale).floor.toNat } }

/-- Mirrors `addOuterWalls`: stamp the outer ring of the grid as walls. -/
def addOuterWalls (g : Grid) : Grid :=
  let h := g.length
  let w := (g.headD []).length
  let g1 := (List.range w).foldl
    (fun gg (x : Nat) =>
      gridSet (gridSet gg ⟨(x : Int), 0⟩ Cell.wall)
        ⟨(x : Int), (h : Int) - 1⟩ Cell.wall)
    g
  (List.range h).foldl
    (fun gg (y : Nat) =>
      gridSet (gridSet gg ⟨0, (y : Int)⟩ Cell.wall)
        ⟨(w : Int) - 1, (y : Int)⟩ Cell.wall)
    g1

/-- Mirrors `createShapedRoom`: an L-shaped partition (two wall arms), with a
third arm forming a U-shape when the single draw exceeds one half and the
complexity exceeds one half. -/
def createShapedRoom (g : Grid) (st : ComplexitySettings) (r : Rng) :
    Grid × Rng :=
  let h := g.length
  let w := (g.headD []).length
  let rv := (draw r).1
  let r1 := (draw r).2
  let isUShape : Bool := (fr 1 2).blt rv && (fr 1 2).blt st.roomComplexity
  let wallStartX := (fr ((w : Int)) 1 * fr 4 10).floor.toNat
  let wallEndX := (fr ((w : Int)) 1 * fr 7 10).floor.toNat
  let wallStartY := (fr ((h : Int)) 1 * fr 4 10).floor.toNat
  let wallEndY := (fr ((h : Int)) 1 * fr 7 10).floor.toNat
  let g1 := (List.range' 1 (wallEndY - 1)).foldl
    (fun gg (y : Nat) => gridSet gg ⟨(wallStartX : Int), (y : Int)⟩ Cell.wall) g
  let g2 := (List.range' wallStartX (w - 1 - wallStartX)).foldl
    (fun gg (x : Nat) => gridSet gg ⟨(x : Int), (wallStartY : Int)⟩ Cell.wall) g1
  let g3 :=
    if isUShape then
      (List.range' 1 (wallEndY - 1)).foldl
        (fun gg (y : Nat) => gridSet gg ⟨(wallEndX : Int), (y : Int)⟩ Cell.wall) g2
    else g2
  (g3, r1)

/-- One divider of `createComplexRoom`: a randomly placed straight wall with
one gap position (the gap can fall outside the divider when the divider is
degenerate, exactly as in the source arithmetic). -/
def addDivider (g : Grid) (r : Rng) : Grid × Rng :=
  let h := g.length
  let w := (g.headD []).length
  let dirv := (draw r).1
  let r1 := (draw r).2
  let isHorizontal : Bool := (fr 1 2).blt dirv
  if isHorizontal then
    let yv := (draw r1).1
    let r2 := (draw r1).2
    let sv := (draw r2).1
    let r3 := (draw r2).2
    let ev := (draw r3).1
    let r4 := (draw r3).2
    let y : Int := (fr ((h : Int)) 1 * fr 3 10 + yv * (fr ((h : Int)) 1 * fr 4 10)).floor
    let startX : Int := (fr 1 1 + sv * (fr ((w : Int)) 1 * fr 3 10)).floor
    let endX : Int := (fr ((w : Int)) 1 * fr 7 10 + ev * (fr ((w : Int)) 1 * fr 3 10) - fr 1 1).floor
    let gv := (draw r4).1
    let r5 := (draw r4).2
    let gapPos : Int := (fr startX 1 + gv * (fr endX 1 - fr startX 1 - fr 1 1)).floor
    let cnt : Nat := (endX + 1 - startX).toNat
    let g2 := (List.range cnt).foldl
      (fun gg (k : Nat) =>
        let x : Int := startX + k
        if x ≠ gapPos then gridSet gg ⟨x, y⟩ Cell.wall else gg)
      g
    (g2, r5)
  else
    let xv := (draw r1).1
    let r2 := (draw r1).2
    let sv := (draw r2).1
    let r3 := (draw r2).2
    let ev := (draw r3).1
    let r4 := (draw r3).2
    let x : Int := (fr ((w : Int)) 1 * fr 3 10 + xv * (fr ((w : Int)) 1 * fr 4 10)).floor
    let startY : Int := (fr 1 1 + sv * (fr ((h : Int)) 1 * fr 3 10)).floor
    let endY : Int := (fr ((h : Int)) 1 * fr 7 10 + ev * (fr ((h : Int)) 1 * fr 3 10) - fr 1 1).floor
    let gv := (draw r4).1
    let r5 := (draw r4).2
    let gapPos : Int := (fr startY 1 + gv * (fr endY 1 - fr startY 1 - fr 1 1)).floor
    let cnt : Nat := (endY + 1 - startY).toNat
    let g2 := (List.range cnt).foldl
      (fun gg (k : Nat) =>
        let y : Int := startY + k
        if y ≠ gapPos then gridSet gg ⟨x, y⟩ Cell.wall else gg)
      g
    (g2, r5)

/-- Mirrors `createComplexRoom`: two to five randomly oriented dividers. -/
def createComplexRoom (g : Grid) (st : ComplexitySettings) (r : Rng) :
    Grid × Rng :=
  let numDividers := (fr 2 1 + st.roomComplexity * fr 3 1).floor.toNat
  (List.range numDividers).foldl (fun st2 _ => addDivider st2.1 st2.2) (g, r)

/-- The scattering loop of `addInteriorWalls`: draw random interior cells and
convert empty ones to walls until the required number of walls is added.  The
source's `while` loop has no structural bound, so the embedding takes fuel
and returns `none` when the loop has not finished within it. -/
def scatterAux (w h numWalls : Nat) : Nat → Grid → Nat → Rng →
    Option (Grid × Rng)
  | 0, _, _, _ => none
  | fuel + 1, g, added, r =>
      if numWalls ≤ added then some (g, r)
      else
        let xv := (draw r).1
        let r1 := (draw r).2
        let yv := (draw r1).1
        let r2 := (draw r1).2
        let x : Int := (fr 1 1 + xv * (fr ((w : Int)) 1 - fr 2 1)).floor
        let y : Int := (fr 1 1 + yv * (fr ((h : Int)) 1 - fr 2 1)).floor
        if cellAt g ⟨x, y⟩ = Cell.empty then
          scatterAux w h numWalls fuel (gridSet g ⟨x, y⟩ Cell.wall) (added + 1) r2
        else scatterAux w h numWalls fuel g added r2

/-- Mirrors `addInteriorWalls`: compute the wall quota from the interior area
and the wall density, then scatter. -/
def addInteriorWalls (g : Grid) (st : ComplexitySettings) (r : Rng)
    (fuel : Nat) : Option (Grid × Rng) :=
  let h := g.length
  let w := (g.headD []).length
  let numWalls := (fr (((w - 2) * (h - 2) : Nat) : Int) 1 * st.wallDensity).floor.toNat
  scatterAux w h numWalls fuel g 0 r

/-- The candidate door positions of `placeDoor`, in source push order: left
and right columns (row by row), then top and bottom rows (column by column),
excluding corners. -/
def doorCandidates (w h : Nat) : List Pos :=
  ((List.range' 1 (h - 2)).flatMap
    (fun (y : Nat) => [⟨0, (y : Int)⟩, ⟨(w : Int) - 1, (y : Int)⟩])) ++
  ((List.range' 1 (w - 2)).flatMap
    (fun (x : Nat) => [⟨(x : Int), 0⟩, ⟨(x : Int), (h : Int) - 1⟩]))

/-- Swap of two list entries, mirroring the destructuring assignment of the
Fisher-Yates shuffle. -/
def swapL (l : List Pos) (i j : Nat) : List Pos :=
  let a := l.getD i ⟨0, 0⟩
  let b := l.getD j ⟨0, 0⟩
  (l.set i b).set j a

/-- One iteration of the Fisher-Yates shuffle of `placeDoor`: swap position
`i = n - 1 - k` with a randomly drawn index `j ≤ i`. -/
def fyStep (n : Nat) (st : List Pos × Rng) (k : Nat) : List Pos × Rng :=
  let i := n - 1 - k
  let rv := (draw st.2).1
  let r2 := (draw st.2).2
  let j := (rv * (fr ((i : Int)) 1 + fr 1 1)).floor.toNat
  (swapL st.1 i j, r2)

/-- The Fisher-Yates shuffle of `placeDoor`, drawing one random index per
iteration, from the last element down to the second. -/
def fisherYates (l : List Pos) (r : Rng) : List Pos × Rng :=
  (List.range (l.length - 1)).foldl (fyStep l.length) (l, r)

/-- The fit test of a door candidate: some orthogonal neighbour lies strictly
inside the room and holds an empty cell (source adjacency order: right, left,
down, up). -/
def doorFits (g : Grid) (w h : Nat) (p : Pos) : Bool :=
  ([⟨p.x + 1, p.y⟩, ⟨p.x - 1, p.y⟩, ⟨p.x, p.y + 1⟩, ⟨p.x, p.y - 1⟩] :
      List Pos).any
    (fun q => decide (0 < q.x) && decide (q.x < (w : Int) - 1) &&
      decide (0 < q.y) && decide (q.y < (h : Int) - 1) &&
      (cellAt g q == Cell.empty))

/-- Mirrors `placeDoor`: shuffle the ring candidates, take the first that
fits, and otherwise fall back to the middle of the left wall; the chosen cell
is stamped `door`. -/
def placeDoor (g : Grid) (r : Rng) : Grid × Pos × Rng :=
  let h := g.length
  let w := (g.headD []).length
  let sh := fisherYates (doorCandidates w h) r
  match sh.1.find? (doorFits g w h) with
  | some p => (gridSet g p Cell.door, p, sh.2)
  | none =>
      let dp : Pos := ⟨0, ((h / 2 : Nat) : Int)⟩
      (gridSet g dp Cell.door, dp, sh.2)

/-- Lookup in the boolean visited matrix of `validateLevel`. -/
def visGet (vis : List (List Bool)) (p : Pos) : Bool :=
  (vis.getD p.y.toNat []).getD p.x.toNat false

/-- Marking in the boolean visited matrix of `validateLevel`. -/
def visSet (vis : List (List Bool)) (p : Pos) : List (List Bool) :=
  vis.set p.y.toNat ((vis.getD p.y.toNat []).set p.x.toNat true)

/-- Neighbour processing of the counting flood fill in `validateLevel`. -/
def validStep (g : Grid) (w h : Nat)
    (st : List Pos × List (List Bool) × Nat) (np : Pos) :
    List Pos × List (List Bool) × Nat :=
  if decide (0 ≤ np.x) && decide (np.x < (w : Int)) && decide (0 ≤ np.y) &&
      decide (np.y < (h : Int)) && (cellAt g np == Cell.empty) &&
      !(visGet st.2.1 np) then
    (st.1 ++ [np], visSet st.2.1 np, st.2.2 + 1)
  else st

/-- Counting flood fill of `validateLevel` (fuel bounds the dequeues; the
fuel passed by the callers, the cell count plus two, is never exhausted
because every enqueued cell is freshly marked visited). -/
def validFloodAux (g : Grid) (w h : Nat) :
    Nat → List Pos × List (List Bool) × Nat → Nat
  | 0, st => st.2.2
  | fuel + 1, st =>
      match st.1 with
      | [] => st.2.2
      | q :: qs =>
          let st2 := ([⟨q.x + 1, q.y⟩, ⟨q.x - 1, q.y⟩, ⟨q.x, q.y + 1⟩,
            ⟨q.x, q.y - 1⟩] : List Pos).foldl (validStep g w h)
            (qs, st.2.1, st.2.2)
          validFloodAux g w h fuel st2

/-- The seed scan of `validateLevel`: first in-bounds empty cell orthogonally
adjacent to the door (order: right, left, down, up). -/
def doorSeedScan (g : Grid) (w h : Nat) (door : Pos) : Option Pos :=
  ([⟨door.x + 1, door.y⟩, ⟨door.x - 1, door.y⟩, ⟨door.x, door.y + 1⟩,
    ⟨door.x, door.y - 1⟩] : List Pos).find?
    (fun p => decide (0 ≤ p.x) && decide (p.x < (w : Int)) &&
      decide (0 ≤ p.y) && decide (p.y < (h : Int)) &&
      (cellAt g p == Cell.empty))

/-- Number of empty cells reachable from a door-adjacent empty cell, computed
exactly as `validateLevel` counts them (zero when the door has no adjacent
empty cell). -/
def reachableEmptyCount (g : Grid) (door : Pos) : Nat :=
  let h := g.length
  let w := (g.headD []).length
  match doorSeedScan g w h door with
  | none => 0
  | some seed =>
      let vis0 : List (List Bool) :=
        List.replicate h (List.replicate w false)
      validFloodAux g w h (w * h + 2) ([seed], visSet vis0 seed, 1)

/-- Mirrors `validateLevel`: the level passes when a door-adjacent empty cell
exists and the flood-fill count of reachable empty cells meets the minimum. -/
def validateLevel (g : Grid) (door : Pos) (st : ComplexitySettings) : Bool :=
  let h := g.length
  let w := (g.headD []).length
  match doorSeedScan g w h door with
  | none => false
  | some _ => decide (st.minEmptySpaces ≤ reachableEmptyCount g door)

/-- Mirrors `getLevelName`: descriptive name from size tier, complexity tier
and a randomly drawn room type. -/
def getLevelName (st : ComplexitySettings) (r : Rng) : String × Rng :=
  let sizeNames := ["Small", "Medium", "Large", "Huge"]
  let sizeIndex := min ((st.width + st.height) / 12 - 1) (sizeNames.length - 1)
  let complexityNames := ["Simple", "Cozy", "Interesting", "Complex",
    "Challenging"]
  let complexityIndex := min (st.roomComplexity * fr 5 1).floor.toNat
    (complexityNames.length - 1)
  let roomTypes := ["Room", "Apartment", "Studio", "Loft", "Suite"]
  let rv := (draw r).1
  let r1 := (draw r).2
  let roomTypeIndex := (rv * fr 5 1).floor.toNat
  (sizeNames.getD sizeIndex "" ++ " " ++ complexityNames.getD complexityIndex ""
    ++ " " ++ roomTypes.getD roomTypeIndex "", r1)

/-- Embedding of `generateLevel`.  The first fuel argument bounds the number
of validation retries (the source recursion has no explicit cap); the last
argument is the fuel handed to each interior-wall scattering loop.  `none`
means the source would not have terminated within these bounds. -/
def generateLevelFuel : Nat → Frac → Nat → Rng → Nat → Option GeneratedLevel
  | 0, _, _, _, _ => none
  | rfuel + 1, complexity, levelNumber, r, sfuel =>
      let st := mkSettings complexity
      let g0 : Grid := List.replicate st.height (List.replicate st.width Cell.empty)
      let g1 := addOuterWalls g0
      let gr2 :=
        if (fr 3 10).blt st.roomComplexity then
          if (fr 7 10).blt st.roomComplexity then createComplexRoom g1 st r
          else createShapedRoom g1 st r
        else (g1, r)
      (addInteriorWalls gr2.1 st gr2.2 sfuel).bind (fun gr3 =>
        let pd := placeDoor gr3.1 gr3.2
        if validateLevel pd.1 pd.2.1 st then
          let walls := (gridPositions pd.1).filter
            (fun p => cellAt pd.1 p == Cell.wall)
          let nm := getLevelName st pd.2.2
          some { width := st.width, height := st.height, walls := walls,
                 doorPosition := pd.2.1,
                 name := "Level " ++ toString levelNumber ++ ": " ++ nm.1,
                 inventory := st.inventory }
        else
          generateLevelFuel rfuel (Frac.max0 (complexity - fr 1 10)) levelNumber
            pd.2.2 sfuel)

/-- Grid derived from a generated level by the consumer (spec §3): all cells
empty, then the recorded walls, then the door. -/
def reconstructGrid (lvl : GeneratedLevel) : Grid :=
  let base : Grid := List.replicate lvl.height (List.replicate lvl.width Cell.empty)
  let withWalls := lvl.walls.foldl (fun gg p => gridSet gg p Cell.wall) base
  gridSet withWalls lvl.doorPosition Cell.door

/-- The constant draw stream. -/
def constRng (q : Frac) : Rng := fun _ => q

/-- Termination of the embedded `generateLevel`: some retry bound and some
scattering-loop bound suffice for the run to produce a level. -/
def GenTerminates (c : Frac) (n : Nat) (r : Rng) : Prop :=
  ∃ rfuel sfuel, generateLevelFuel rfuel c n r sfuel ≠ none

/-- The 7 by 7 grid built by `generateLevel` at complexity 3/10 before wall
scattering: all empty with the outer ring stamped as wall (no carving at this
complexity). -/
def ring7 : Grid := addOuterWalls (List.replicate 7 (List.replicate 7 Cell.empty))

theorem scatter_stuck : ∀ fuel,
    scatterAux 7 7 4 fuel (gridSet ring7 ⟨1, 1⟩ Cell.wall) 1 (constRng (fr 0 1)) =
      none := by
  intro fuel
  induction fuel with
  | zero => rfl
  | succ fuel ih => exact ih

theorem scatter_start : ∀ fuel,
    scatterAux 7 7 4 fuel ring7 0 (constRng (fr 0 1)) = none := by
  intro fuel
  match fuel with
  | 0 => rfl
  | fuel + 1 => exact scatter_stuck fuel

/-- Counterexample to claim C6 as stated: at complexity 3/10 the constant
zero draw stream (a valid stream, every draw in `[0,1)`) makes the
interior-wall scattering loop draw the already-walled cell (1,1) forever, so
`generateLevel` does not terminate for every draw sequence. -/
theorem claim_C6_counterexample :
    ValidRng (constRng (fr 0 1)) ∧
      (0 : ℚ) ≤ (fr 3 10).toRat ∧ (fr 3 10).toRat ≤ 1 ∧
      ¬ GenTerminates (fr 3 10) 7 (constRng (fr 0 1)) := by
  refine ⟨fun _ => (by decide : (fr 0 1).valid), by norm_num [Frac.toRat, fr],
    by norm_num [Frac.toRat, fr], ?_⟩
  rintro ⟨rfuel, sfuel, hne⟩
  apply hne
  match rfuel with
  | 0 => rfl
  | rfuel + 1 =>
    have hsc : addInteriorWalls ring7 (mkSettings (fr 3 10)) (constRng (fr 0 1))
        sfuel = none := scatter_start sfuel
    show (addInteriorWalls ring7 (mkSettings (fr 3 10)) (constRng (fr 0 1))
        sfuel).bind _ = none
    rw [hsc]
    rfl

/-- A finite draw stream: values from the list, then zeros. -/
def listRng (l : List Frac) : Rng := fun n => l.getD n (fr 0 1)

/-- The draw sequence for the C5 counterexample run: it drives
`generateLevel (1/2) 5` through two failing attempts (9 by 9 then 8 by 8,
each with the scattered walls sealing off part of the room from the door) to
a third attempt at complexity 3/10 whose 7 by 7 level is accepted with 19
reachable empty cells — below `floor (10 + 20 * (1/2)) = 20`. -/
def cexVals : List Frac := [fr 0 1, fr 5 7, fr 0 7, fr 6 7, fr 1 7, fr 0 7, fr 5 7, fr 1 7, fr 5 7, fr 3 7, fr 5 7, fr 4 7, fr 5 7, fr 5 7, fr 5 7, fr 6 7, fr 5 7, fr 0 7, fr 6 7, fr 0 1, fr 0 1, fr 0 1, fr 0 1, fr 0 1, fr 0 1, fr 0 1, fr 0 1, fr 0 1, fr 0 1, fr 0 1, fr 0 1, fr 0 1, fr 0 1, fr 0 1, fr 0 1, fr 0 1, fr 0 1, fr 0 1, fr 0 1, fr 0 1, fr 0 1, fr 0 1, fr 0 1, fr 0 1, fr 0 1, fr 0 1, fr 0 1, fr 0 6, fr 5 6, fr 1 6, fr 5 6, fr 3 6, fr 5 6, fr 4 6, fr 5 6, fr 5 6, fr 5 6, fr 0 6, fr 4 6, fr 0 1, fr 0 1, fr 0 1, fr 0 1, fr 0 1, fr 0 1, fr 0 1, fr 0 1, fr 0 1, fr 0 1, fr 0 1, fr 0 1, fr 0 1, fr 0 1, fr 0 1, fr 0 1, fr 0 1, fr 0 1, fr 0 1, fr 0 1, fr 0 1, fr 0 1, fr 0 1, fr 1 5, fr 0 5, fr 1 5, fr 1 5, fr 0 5, fr 2 5, fr 3 5, fr 3 5, fr 0 1, fr 0 1, fr 0 1, fr 0 1, fr 0 1, fr 0 1, fr 0 1, fr 0 1, fr 0 1, fr 0 1, fr 0 1, fr 0 1, fr 0 1, fr 0 1, fr 0 1, fr 0 1, fr 0 1, fr 0 1, fr 0 1, fr 0 1]

theorem listRng_valid {l : List Frac} (h : ∀ v ∈ l, v.valid) :
    ValidRng (listRng l) := by
  intro n
  unfold listRng
  rcases Nat.lt_or_ge n l.length with hn | hn
  · rw [List.getD_eq_getElem l _ hn]
    exact h _ (List.getElem_mem hn)
  · rw [List.getD_eq_default _ _ hn]
    decide

/-- Counterexample to claim C5 as stated: with `complexityFactor = 1/2` there
is a valid draw sequence for which `generateLevel` (after two failed attempts
and internal retries at reduced complexity) returns a level whose
reconstructed grid has only 19 empty cells reachable from the door-adjacent
seed, strictly below `floor (10 + 20 * (1/2)) = 20` — the minimum demanded by
the claim for the caller's `complexityFactor`. -/
theorem claim_C5_counterexample :
    ValidRng (listRng cexVals) ∧
      (0 : ℚ) ≤ (fr 1 2).toRat ∧ (fr 1 2).toRat ≤ 1 ∧
      (generateLevelFuel 4 (fr 1 2) 5 (listRng cexVals) 30).map
        (fun lvl => reachableEmptyCount (reconstructGrid lvl) lvl.doorPosition)
        = some 19 ∧
      (fr 10 1 + fr 1 2 * fr 20 1).floor.toNat = 20 ∧ 19 < 20 := by
  refine ⟨listRng_valid (by decide), by norm_num [Frac.toRat, fr],
    by norm_num [Frac.toRat, fr], by decide, by decide, by decide⟩

/-! ### The generator at zero complexity (claims C6 and C8) -/

/-- The 6 by 6 starting grid of `generateLevel` at complexity zero: an empty
room with its outer wall ring. -/
def ring6 : Grid := addOuterWalls (List.replicate 6 (List.replicate 6 Cell.empty))

/-- The scattered-wall coordinate `1 + v * (6 - 2)` floors into the interior
band `[1, 4]` for every valid draw. -/
theorem scatter_floor_bounds {v : Frac} (hv : v.valid) :
    1 ≤ (fr 1 1 + v * (fr (((6 : Nat) : Int)) 1 - fr 2 1)).floor ∧
      (fr 1 1 + v * (fr (((6 : Nat) : Int)) 1 - fr 2 1)).floor ≤ 4 := by
  obtain ⟨hd, h0, h1⟩ := hv
  have he : (fr 1 1 + v * (fr (((6 : Nat) : Int)) 1 - fr 2 1)).floor
      = Int.fdiv (1 * (v.den * (1 * 1)) + v.num * ((6 : Int) * 1 - 2 * 1) * 1)
          (1 * (v.den * (1 * 1))) := rfl
  have hD : (0 : Int) < 1 * (v.den * (1 * 1)) := by simpa using hd
  rw [he, Int.fdiv_eq_ediv _ (le_of_lt hD)]
  constructor
  · rw [Int.le_ediv_iff_mul_le hD]
    nlinarith
  · have h5 : (1 * (v.den * (1 * 1)) + v.num * ((6 : Int) * 1 - 2 * 1) * 1)
        / (1 * (v.den * (1 * 1))) < 5 := by
      rw [Int.ediv_lt_iff_lt_mul hD]
      nlinarith
    omega

/-- The Fisher-Yates index draw `v * (i + 1)` floors into `[0, i]` for every
valid draw. -/
theorem fy_floor_le {v : Frac} (hv : v.valid) (i : Nat) :
    (v * (fr ((i : Int)) 1 + fr 1 1)).floor.toNat ≤ i := by
  obtain ⟨hd, h0, h1⟩ := hv
  have he : (v * (fr ((i : Int)) 1 + fr 1 1)).floor
      = Int.fdiv (v.num * ((i : Int) * 1 + 1 * 1)) (v.den * (1 * 1)) := rfl
  have hD : (0 : Int) < v.den * (1 * 1) := by simpa using hd
  rw [he, Int.fdiv_eq_ediv _ (le_of_lt hD), Int.toNat_le]
  have hi0 : (0 : Int) ≤ (i : Int) := Int.natCast_nonneg i
  have h5 : v.num * ((i : Int) * 1 + 1 * 1) / (v.den * (1 * 1)) < (i : Int) + 1 := by
    rw [Int.ediv_lt_iff_lt_mul hD]
    nlinarith
  omega

theorem cons_set_perm {α : Type} : ∀ (t : List α) (m : Nat) (hm : m < t.length)
    (x : α), ((t.get ⟨m, hm⟩ :: t.set m x).Perm (x :: t)) := by
  intro t
  induction t with
  | nil => intro m hm; exact absurd hm (by simp)
  | cons y s ih =>
    intro m hm x
    cases m with
    | zero => exact List.Perm.swap x y s
    | succ m =>
      have hm2 : m < s.length := by simpa using hm
      show (s.get ⟨m, hm2⟩ :: y :: s.set m x).Perm (x :: y :: s)
      exact List.Perm.trans (List.Perm.swap y (s.get ⟨m, hm2⟩) (s.set m x))
        (List.Perm.trans ((ih m hm2 x).cons y) (List.Perm.swap x y s))

theorem set_set_perm {α : Type} : ∀ (l : List α) (i j : Nat) (hi : i < l.length)
    (hj : j < l.length), ((l.set i (l.get ⟨j, hj⟩)).set j (l.get ⟨i, hi⟩)).Perm l := by
  intro l
  induction l with
  | nil => intro i j hi _; exact absurd hi (by simp)
  | cons y s ih =>
    intro i j hi hj
    match i, j with
    | 0, 0 => exact List.Perm.refl _
    | 0, j + 1 =>
      have hj2 : j < s.length := by simpa using hj
      show (s.get ⟨j, hj2⟩ :: s.set j y).Perm (y :: s)
      exact cons_set_perm s j hj2 y
    | i + 1, 0 =>
      have hi2 : i < s.length := by simpa using hi
      show (s.get ⟨i, hi2⟩ :: s.set i y).Perm (y :: s)
      exact cons_set_perm s i hi2 y
    | i + 1, j + 1 =>
      have hi2 : i < s.length := by simpa using hi
      have hj2 : j < s.length := by simpa using hj
      show (y :: (s.set i (s.get ⟨j, hj2⟩)).set j (s.get ⟨i, hi2⟩)).Perm (y :: s)
      exact (ih i j hi2 hj2).cons y

theorem swapL_perm (l : List Pos) (i j : Nat) (hi : i < l.length)
    (hj : j < l.length) : (swapL l i j).Perm l := by
  unfold swapL
  rw [List.getD_eq_getElem l _ hi, List.getD_eq_getElem l _ hj]
  exact set_set_perm l i j hi hj

theorem mem_swapL {l : List Pos} {i j : Nat} {x : Pos} (hx : x ∈ swapL l i j) :
    x ∈ l ∨ x = ⟨0, 0⟩ := by
  unfold swapL at hx
  rcases List.mem_or_eq_of_mem_set hx with hx1 | hx1
  · rcases List.mem_or_eq_of_mem_set hx1 with hx2 | hx2
    · exact Or.inl hx2
    · rcases Nat.lt_or_ge j l.length with hjl | hjl
      · rw [List.getD_eq_getElem l _ hjl] at hx2
        exact Or.inl (hx2 ▸ List.getElem_mem hjl)
      · rw [List.getD_eq_default _ _ hjl] at hx2
        exact Or.inr hx2
  · rcases Nat.lt_or_ge i l.length with hil | hil
    · rw [List.getD_eq_getElem l _ hil] at hx1
      exact Or.inl (hx1 ▸ List.getElem_mem hil)
    · rw [List.getD_eq_default _ _ hil] at hx1
      exact Or.inr hx1

theorem fyStep_fst_perm (n : Nat) (hn : 0 < n) (st : List Pos × Rng) (k : Nat)
    (hv : (st.2 0).valid) (hlen : st.1.length = n) :
    ((fyStep n st k).1).Perm st.1 := by
  have hi : n - 1 - k < n := by omega
  have hjle := fy_floor_le (v := (draw st.2).1) hv (n - 1 - k)
  exact swapL_perm st.1 (n - 1 - k) _ (by omega)
    (by rw [hlen]; exact Nat.lt_of_le_of_lt hjle hi)

theorem fy_fold_perm (n : Nat) (hn : 0 < n) :
    ∀ (ks : List Nat) (acc : List Pos) (r : Rng), ValidRng r → acc.length = n →
      ((ks.foldl (fyStep n) (acc, r)).1).Perm acc := by
  intro ks
  induction ks with
  | nil => intro acc r _ _; exact List.Perm.refl _
  | cons k ks ih =>
    intro acc r hr hlen
    have hperm1 : ((fyStep n (acc, r) k).1).Perm acc :=
      fyStep_fst_perm n hn (acc, r) k (hr 0) hlen
    have hlen1 : (fyStep n (acc, r) k).1.length = n := by
      rw [hperm1.length_eq, hlen]
    have hr1 : ValidRng (fyStep n (acc, r) k).2 := fun m => hr (m + 1)
    exact (ih (fyStep n (acc, r) k).1 (fyStep n (acc, r) k).2 hr1 hlen1).trans hperm1

theorem fisherYates_perm (l : List Pos) (r : Rng) (hr : ValidRng r) :
    ((fisherYates l r).1).Perm l := by
  rcases Nat.eq_zero_or_pos l.length with h0 | hp
  · rw [List.length_eq_zero.mp h0]
    exact List.Perm.refl _
  · exact fy_fold_perm l.length hp (List.range (l.length - 1)) l r hr rfl

/-- `ring6` written out: rows 1 to 4 are empty between the boundary walls. -/
theorem ring6_lit : ring6 =
    [[Cell.wall, Cell.wall, Cell.wall, Cell.wall, Cell.wall, Cell.wall],
     [Cell.wall, Cell.empty, Cell.empty, Cell.empty, Cell.empty, Cell.wall],
     [Cell.wall, Cell.empty, Cell.empty, Cell.empty, Cell.empty, Cell.wall],
     [Cell.wall, Cell.empty, Cell.empty, Cell.empty, Cell.empty, Cell.wall],
     [Cell.wall, Cell.empty, Cell.empty, Cell.empty, Cell.empty, Cell.wall],
     [Cell.wall, Cell.wall, Cell.wall, Cell.wall, Cell.wall, Cell.wall]] := by
  decide

theorem ring6_interior_empty (x y : Int) (h1 : 1 ≤ x) (h2 : x ≤ 4) (h3 : 1 ≤ y)
    (h4 : y ≤ 4) : cellAt ring6 ⟨x, y⟩ = Cell.empty := by
  rw [ring6_lit]
  interval_cases x <;> interval_cases y <;> decide

theorem scatterAux_done (w h numWalls fuel : Nat) (g : Grid) (added : Nat)
    (r : Rng) (hge : numWalls ≤ added) :
    scatterAux w h numWalls (fuel + 1) g added r = some (g, r) := by
  rw [scatterAux]
  exact if_pos hge

theorem scatterAux_step (w h numWalls fuel : Nat) (g : Grid) (added : Nat)
    (r : Rng) (hlt : ¬ numWalls ≤ added)
    (hcell : cellAt g ⟨(fr 1 1 + (draw r).1 * (fr ((w : Int)) 1 - fr 2 1)).floor,
      (fr 1 1 + (draw (draw r).2).1 * (fr ((h : Int)) 1 - fr 2 1)).floor⟩ =
      Cell.empty) :
    scatterAux w h numWalls (fuel + 1) g added r =
      scatterAux w h numWalls fuel
        (gridSet g ⟨(fr 1 1 + (draw r).1 * (fr ((w : Int)) 1 - fr 2 1)).floor,
          (fr 1 1 + (draw (draw r).2).1 * (fr ((h : Int)) 1 - fr 2 1)).floor⟩
          Cell.wall)
        (added + 1) (draw (draw r).2).2 := by
  rw [scatterAux]
  rw [if_neg hlt]
  exact if_pos hcell

/-- At zero complexity the scattering loop places exactly one wall, at an
interior cell determined by the first two draws, and terminates within two
iterations. -/
theorem scatter_ring6 (r : Rng) (hr : ValidRng r) (sfuel : Nat) :
    ∃ wx wy : Int, 1 ≤ wx ∧ wx ≤ 4 ∧ 1 ≤ wy ∧ wy ≤ 4 ∧
      scatterAux 6 6 1 (sfuel + 2) ring6 0 r =
        some (gridSet ring6 ⟨wx, wy⟩ Cell.wall, fun n => r (n + 2)) := by
  obtain ⟨hx1, hx2⟩ := scatter_floor_bounds (hr 0)
  obtain ⟨hy1, hy2⟩ := scatter_floor_bounds (hr 1)
  refine ⟨(fr 1 1 + r 0 * (fr (((6 : Nat) : Int)) 1 - fr 2 1)).floor,
    (fr 1 1 + r 1 * (fr (((6 : Nat) : Int)) 1 - fr 2 1)).floor,
    hx1, hx2, hy1, hy2, ?_⟩
  have hcell := ring6_interior_empty _ _ hx1 hx2 hy1 hy2
  show scatterAux 6 6 1 (sfuel + 1 + 1) ring6 0 r = _
  rw [scatterAux_step 6 6 1 (sfuel + 1) ring6 0 r (by omega) hcell]
  rw [scatterAux_done 6 6 1 sfuel _ 1 _ (by omega)]
  rfl

set_option maxHeartbeats 1000000 in
/-- At complexity zero the interior-wall quota is one. -/
theorem addInteriorWalls_ring6 (r : Rng) (sfuel : Nat) :
    addInteriorWalls ring6 (mkSettings (fr 0 1)) r sfuel =
      scatterAux 6 6 1 sfuel ring6 0 r := rfl

set_option maxHeartbeats 1000000 in
/-- Unfolding of `generateLevelFuel` with a single retry allowed at
complexity zero: no carving happens and one interior wall is required. -/
theorem genZero_eq_aux (n : Nat) (r : Rng) (sfuel : Nat) :
    generateLevelFuel 1 (fr 0 1) n r sfuel =
      (addInteriorWalls ring6 (mkSettings (fr 0 1)) r sfuel).bind (fun gr3 =>
        if validateLevel (placeDoor gr3.1 gr3.2).1 (placeDoor gr3.1 gr3.2).2.1
            (mkSettings (fr 0 1)) then
          some { width := (mkSettings (fr 0 1)).width,
                 height := (mkSettings (fr 0 1)).height,
                 walls := (gridPositions (placeDoor gr3.1 gr3.2).1).filter
                   (fun p => cellAt (placeDoor gr3.1 gr3.2).1 p == Cell.wall),
                 doorPosition := (placeDoor gr3.1 gr3.2).2.1,
                 name := "Level " ++ toString n ++ ": "
                   ++ (getLevelName (mkSettings (fr 0 1))
                     (placeDoor gr3.1 gr3.2).2.2).1,
                 inventory := (mkSettings (fr 0 1)).inventory }
        else none) := rfl

theorem genZero_eq (n : Nat) (r : Rng) (sfuel : Nat) :
    generateLevelFuel 1 (fr 0 1) n r sfuel =
      (scatterAux 6 6 1 sfuel ring6 0 r).bind (fun gr3 =>
        if validateLevel (placeDoor gr3.1 gr3.2).1 (placeDoor gr3.1 gr3.2).2.1
            (mkSettings (fr 0 1)) then
          some { width := (mkSettings (fr 0 1)).width,
                 height := (mkSettings (fr 0 1)).height,
                 walls := (gridPositions (placeDoor gr3.1 gr3.2).1).filter
                   (fun p => cellAt (placeDoor gr3.1 gr3.2).1 p == Cell.wall),
                 doorPosition := (placeDoor gr3.1 gr3.2).2.1,
                 name := "Level " ++ toString n ++ ": "
                   ++ (getLevelName (mkSettings (fr 0 1))
                     (placeDoor gr3.1 gr3.2).2.2).1,
                 inventory := (mkSettings (fr 0 1)).inventory }
        else none) := by
  rw [genZero_eq_aux, addInteriorWalls_ring6]

theorem find?_of_perm_exists {l sh : List Pos} (hperm : sh.Perm l)
    (pred : Pos → Bool) (hex : ∃ p ∈ l, pred p = true) :
    ∃ q, sh.find? pred = some q ∧ q ∈ l ∧ pred q = true := by
  cases hq : sh.find? pred with
  | none =>
    obtain ⟨p, hp, hpred⟩ := hex
    have := List.find?_eq_none.mp hq p (hperm.mem_iff.mpr hp)
    exact absurd hpred this
  | some q =>
    exact ⟨q, rfl, hperm.mem_iff.mp (List.mem_of_find?_eq_some hq),
      List.find?_some hq⟩

/-- `placeDoor` with the lets unfolded. -/
theorem placeDoor_eq (g : Grid) (r : Rng) :
    placeDoor g r =
      (match (fisherYates (doorCandidates ((g.headD []).length) g.length) r).1.find?
          (doorFits g ((g.headD []).length) g.length) with
        | some p => (gridSet g p Cell.door, p,
            (fisherYates (doorCandidates ((g.headD []).length) g.length) r).2)
        | none => (gridSet g ⟨0, ((g.length / 2 : Nat) : Int)⟩ Cell.door,
            ⟨0, ((g.length / 2 : Nat) : Int)⟩,
            (fisherYates (doorCandidates ((g.headD []).length) g.length) r).2)) := rfl

theorem placeDoor_finds (g : Grid) (r : Rng) (p : Pos)
    (hf : (fisherYates (doorCandidates ((g.headD []).length) g.length) r).1.find?
        (doorFits g ((g.headD []).length) g.length) = some p) :
    placeDoor g r = (gridSet g p Cell.door, p,
      (fisherYates (doorCandidates ((g.headD []).length) g.length) r).2) := by
  rw [placeDoor_eq, hf]

theorem length_gridSet (g : Grid) (p : Pos) (c : Cell) :
    (gridSet g p c).length = g.length := by
  unfold gridSet
  rw [List.length_set]

theorem headD_length_gridSet (g : Grid) (p : Pos) (c : Cell) :
    ((gridSet g p c).headD []).length = (g.headD []).length := by
  unfold gridSet
  cases g with
  | nil => rfl
  | cons row rows =>
    cases hy : p.y.toNat with
    | zero =>
      show (row.set p.x.toNat c).length = row.length
      rw [List.length_set]
    | succ m => rfl

/-- Whatever interior cell the scattered wall occupies, some ring candidate
has an empty interior neighbour. -/
theorem ring6_fits_exists (wx wy : Int) (h1 : 1 ≤ wx) (h2 : wx ≤ 4)
    (h3 : 1 ≤ wy) (h4 : wy ≤ 4) :
    ∃ p ∈ doorCandidates 6 6,
      doorFits (gridSet ring6 ⟨wx, wy⟩ Cell.wall) 6 6 p = true := by
  rw [ring6_lit]
  interval_cases wx <;> interval_cases wy <;> decide

set_option maxHeartbeats 4000000 in
/-- Every fitting door candidate yields a level that passes validation: the
15 remaining interior empty cells are all reachable from the door seed. -/
theorem ring6_validate (wx wy : Int) (h1 : 1 ≤ wx) (h2 : wx ≤ 4) (h3 : 1 ≤ wy)
    (h4 : wy ≤ 4) :
    ∀ p ∈ doorCandidates 6 6,
      doorFits (gridSet ring6 ⟨wx, wy⟩ Cell.wall) 6 6 p = true →
      validateLevel (gridSet (gridSet ring6 ⟨wx, wy⟩ Cell.wall) p Cell.door) p
        (mkSettings (fr 0 1)) = true := by
  rw [ring6_lit]
  interval_cases wx <;> interval_cases wy <;> decide

set_option maxHeartbeats 1000000 in
/-- Core result for complexity zero: the very first attempt is accepted, for
every level ordinal, every valid draw stream and every scattering allowance
of at least two iterations. -/
theorem genZero_spec (n : Nat) (r : Rng) (hr : ValidRng r) (sfuel : Nat) :
    ∃ lvl, generateLevelFuel 1 (fr 0 1) n r (sfuel + 2) = some lvl ∧
      lvl.width = 6 ∧ lvl.height = 6 ∧ lvl.doorPosition ∈ doorCandidates 6 6 ∧
      lvl.inventory = ⟨2, 1, 1⟩ := by
  obtain ⟨wx, wy, h1, h2, h3, h4, hsc⟩ := scatter_ring6 r hr sfuel
  have hr2 : ValidRng (fun m => r (m + 2)) := fun m => hr (m + 2)
  have hw6 : ((gridSet ring6 ⟨wx, wy⟩ Cell.wall).headD []).length = 6 := by
    rw [headD_length_gridSet]
    rfl
  have hh6 : (gridSet ring6 ⟨wx, wy⟩ Cell.wall).length = 6 := by
    rw [length_gridSet]
    rfl
  have hex := ring6_fits_exists wx wy h1 h2 h3 h4
  have hperm := fisherYates_perm (doorCandidates 6 6) (fun m => r (m + 2)) hr2
  obtain ⟨p, hfind, hpmem, hpfits⟩ := find?_of_perm_exists hperm _ hex
  have hpd := placeDoor_finds (gridSet ring6 ⟨wx, wy⟩ Cell.wall)
    (fun m => r (m + 2)) p (by rw [hw6, hh6]; exact hfind)
  have hval := ring6_validate wx wy h1 h2 h3 h4 p hpmem hpfits
  have hrun : generateLevelFuel 1 (fr 0 1) n r (sfuel + 2) = some
      { width := 6, height := 6,
        walls := (gridPositions
            (gridSet (gridSet ring6 ⟨wx, wy⟩ Cell.wall) p Cell.door)).filter
          (fun q => cellAt (gridSet (gridSet ring6 ⟨wx, wy⟩ Cell.wall) p Cell.door)
            q == Cell.wall),
        doorPosition := p,
        name := "Level " ++ toString n ++ ": " ++ (getLevelName (mkSettings (fr 0 1))
          (fisherYates (doorCandidates
            ((gridSet ring6 ⟨wx, wy⟩ Cell.wall).headD []).length
            (gridSet ring6 ⟨wx, wy⟩ Cell.wall).length) (fun m => r (m + 2))).2).1,
        inventory := ⟨2, 1, 1⟩ } := by
    rw [genZero_eq, hsc, Option.some_bind, hpd, if_pos hval]
    rfl
  exact ⟨_, hrun, rfl, rfl, hpmem, rfl⟩

theorem doorCandidates6_ring :
    ∀ q ∈ doorCandidates 6 6, q.x = 0 ∨ q.x = 5 ∨ q.y = 0 ∨ q.y = 5 := by
  decide

/-- Claim C8: for every level ordinal and every valid draw sequence,
`generateLevel 0` succeeds on its very first attempt (retry allowance one)
whenever the interior scattering loop is allowed at least its two required
iterations, and the level it returns has width and height 6, its single door
on the outer ring (a non-corner ring cell), and inventory counts of at least
2 single, 1 rectangular and 1 l-shaped piece. -/
theorem claim_C8_zero_succeeds (n : Nat) (r : Rng) (hr : ValidRng r)
    (sfuel : Nat) :
    ∃ lvl, generateLevelFuel 1 (fr 0 1) n r (sfuel + 2) = some lvl ∧
      lvl.width = 6 ∧ lvl.height = 6 ∧
      lvl.doorPosition ∈ doorCandidates 6 6 ∧
      (lvl.doorPosition.x = 0 ∨ lvl.doorPosition.x = 5 ∨
        lvl.doorPosition.y = 0 ∨ lvl.doorPosition.y = 5) ∧
      2 ≤ lvl.inventory.single ∧ 1 ≤ lvl.inventory.rectangular ∧
      1 ≤ lvl.inventory.lShaped := by
  obtain ⟨lvl, hl, hw, hh, hd, hinv⟩ := genZero_spec n r hr sfuel
  refine ⟨lvl, hl, hw, hh, hd, doorCandidates6_ring _ hd, ?_, ?_, ?_⟩
  · rw [hinv]
  · rw [hinv]
  · rw [hinv]

theorem claim_C8_witness :
    ValidRng (constRng (fr 0 1)) ∧
      (∃ lvl, generateLevelFuel 1 (fr 0 1) 5 (constRng (fr 0 1)) 2 = some lvl ∧
        lvl.width = 6 ∧ lvl.height = 6 ∧
        lvl.doorPosition ∈ doorCandidates 6 6 ∧
        (lvl.doorPosition.x = 0 ∨ lvl.doorPosition.x = 5 ∨
          lvl.doorPosition.y = 0 ∨ lvl.doorPosition.y = 5) ∧
        2 ≤ lvl.inventory.single ∧ 1 ≤ lvl.inventory.rectangular ∧
        1 ≤ lvl.inventory.lShaped) :=
  ⟨fun _ => (by decide : (fr 0 1).valid),
    claim_C8_zero_succeeds 5 (constRng (fr 0 1))
      (fun _ => (by decide : (fr 0 1).valid)) 0⟩

/-- Claim C6 (amended): at complexity factor zero — where the interior-wall
quota is one and the room keeps at least fifteen empty interior cells — the
generator terminates and returns a level, for every level ordinal and every
valid draw sequence.  (As originally stated, over every complexity factor in
`[0,1]`, the claim is refuted by `claim_C6_counterexample`.) -/
theorem claim_C6_zero_terminates (n : Nat) (r : Rng) (hr : ValidRng r) :
    GenTerminates (fr 0 1) n r := by
  obtain ⟨lvl, hl, _⟩ := genZero_spec n r hr 0
  exact ⟨1, 0 + 2, by rw [hl]; exact Option.some_ne_none lvl⟩

theorem claim_C6_witness : GenTerminates (fr 0 1) 7 (constRng (fr 0 1)) :=
  claim_C6_zero_terminates 7 (constRng (fr 0 1))
    (fun _ => (by decide : (fr 0 1).valid))

/-! ### Reconstruction of the published level grid (claim C5) -/

theorem cellAt_congr_toNat (g : Grid) {p q : Pos} (hx : q.x.toNat = p.x.toNat)
    (hy : q.y.toNat = p.y.toNat) : cellAt g q = cellAt g p := by
  unfold cellAt
  rw [hx, hy]

theorem getD_set {α : Type} (l : List α) (i j : Nat) (a d : α) :
    (l.set i a).getD j d = if i = j ∧ i < l.length then a else l.getD j d := by
  simp only [List.getD_eq_getElem?_getD, List.getElem?_set]
  by_cases h1 : i = j
  · subst h1
    by_cases h2 : i < l.length
    · simp [h2]
    · simp [h2, List.getElem?_eq_none (Nat.le_of_not_lt h2)]
  · simp [h1]

/-- Master pointwise description of `gridSet`. -/
theorem cellAt_gridSet (g : Grid) (p : Pos) (c : Cell) (q : Pos) :
    cellAt (gridSet g p c) q =
      if p.y.toNat = q.y.toNat ∧ p.y.toNat < g.length ∧
          p.x.toNat = q.x.toNat ∧ p.x.toNat < (g.getD p.y.toNat []).length
        then c else cellAt g q := by
  unfold cellAt gridSet
  rw [getD_set]
  by_cases h1 : p.y.toNat = q.y.toNat ∧ p.y.toNat < g.length
  · rw [if_pos h1, getD_set]
    by_cases h2 : p.x.toNat = q.x.toNat ∧
        p.x.toNat < (g.getD p.y.toNat []).length
    · rw [if_pos h2, if_pos ⟨h1.1, h1.2, h2.1, h2.2⟩]
    · rw [if_neg h2, if_neg (by tauto), h1.1]
  · rw [if_neg h1, if_neg (by tauto)]

theorem cellAt_gridSet_self (g : Grid) (p : Pos) (c : Cell)
    (hy : p.y.toNat < g.length)
    (hx : p.x.toNat < (g.getD p.y.toNat []).length) :
    cellAt (gridSet g p c) p = c := by
  rw [cellAt_gridSet, if_pos ⟨rfl, hy, rfl, hx⟩]

theorem cellAt_gridSet_other (g : Grid) (p q : Pos) (c : Cell)
    (h : q.x.toNat ≠ p.x.toNat ∨ q.y.toNat ≠ p.y.toNat) :
    cellAt (gridSet g p c) q = cellAt g q := by
  rw [cellAt_gridSet, if_neg (by tauto)]

theorem getD_replicate {α : Type} (n i : Nat) (a d : α) :
    (List.replicate n a).getD i d = if i < n then a else d := by
  by_cases h : i < n
  · rw [if_pos h,
      List.getD_eq_getElem _ _ (by rw [List.length_replicate]; exact h),
      List.getElem_replicate]
  · rw [if_neg h,
      List.getD_eq_default _ _ (by rw [List.length_replicate]; omega)]

/-- Invariant carried through the level-generation pipeline up to door
placement: fixed rectangular dimensions and only empty or wall cells. -/
def ProtoGrid (w h : Nat) (g : Grid) : Prop :=
  g.length = h ∧ (∀ row ∈ g, row.length = w) ∧
    ∀ q : Pos, cellAt g q = Cell.empty ∨ cellAt g q = Cell.wall

theorem protoGrid_base (w h : Nat) :
    ProtoGrid w h (List.replicate h (List.replicate w Cell.empty)) := by
  refine ⟨List.length_replicate h _, fun row hrow => ?_, fun q => ?_⟩
  · rw [List.eq_of_mem_replicate hrow]
    exact List.length_replicate w _
  · unfold cellAt
    rw [getD_replicate]
    by_cases hy : q.y.toNat < h
    · rw [if_pos hy, getD_replicate]
      by_cases hx : q.x.toNat < w
      · rw [if_pos hx]
        exact Or.inl rfl
      · rw [if_neg hx]
        exact Or.inr rfl
    · rw [if_neg hy]
      exact Or.inr rfl

theorem protoGrid_rowlen {w h : Nat} {g : Grid} (hg : ProtoGrid w h g)
    {y : Nat} (hy : y < h) : (g.getD y []).length = w := by
  have hyl : y < g.length := by rw [hg.1]; exact hy
  rw [List.getD_eq_getElem g _ hyl]
  exact hg.2.1 _ (List.getElem_mem hyl)

theorem protoGrid_gridSet {w h : Nat} {g : Grid} (hg : ProtoGrid w h g)
    (p : Pos) : ProtoGrid w h (gridSet g p Cell.wall) := by
  obtain ⟨hlen, hrows, hcells⟩ := hg
  refine ⟨by rw [length_gridSet, hlen], fun row hrow => ?_, fun q => ?_⟩
  · rcases Nat.lt_or_ge p.y.toNat g.length with hl | hl
    · rcases List.mem_or_eq_of_mem_set hrow with hr | hr
      · exact hrows row hr
      · rw [hr, List.length_set, List.getD_eq_getElem g _ hl]
        exact hrows _ (List.getElem_mem hl)
    · have heq : gridSet g p Cell.wall = g := by
        unfold gridSet
        exact List.set_eq_of_length_le hl
      rw [heq] at hrow
      exact hrows row hrow
  · rw [cellAt_gridSet]
    by_cases hc : p.y.toNat = q.y.toNat ∧ p.y.toNat < g.length ∧
        p.x.toNat = q.x.toNat ∧ p.x.toNat < (g.getD p.y.toNat []).length
    · rw [if_pos hc]
      exact Or.inr rfl
    · rw [if_neg hc]
      exact hcells q

theorem protoGrid_foldl {β : Type} {w h : Nat} (f : Grid → β → Grid)
    (hf : ∀ g b, ProtoGrid w h g → ProtoGrid w h (f g b)) :
    ∀ (l : List β) (g : Grid), ProtoGrid w h g → ProtoGrid w h (l.foldl f g) := by
  intro l
  induction l with
  | nil => intro g hg; exact hg
  | cons b bs ih => intro g hg; exact ih (f g b) (hf g b hg)

theorem protoGrid_addOuterWalls {w h : Nat} {g : Grid} (hg : ProtoGrid w h g) :
    ProtoGrid w h (addOuterWalls g) := by
  unfold addOuterWalls
  apply protoGrid_foldl _
    (fun gg b hgg => protoGrid_gridSet (protoGrid_gridSet hgg _) _)
  apply protoGrid_foldl _
    (fun gg b hgg => protoGrid_gridSet (protoGrid_gridSet hgg _) _)
  exact hg

theorem protoGrid_createShapedRoom {w h : Nat} {g : Grid} (hg : ProtoGrid w h g)
    (st : ComplexitySettings) (r : Rng) :
    ProtoGrid w h (createShapedRoom g st r).1 := by
  unfold createShapedRoom
  dsimp only
  split
  · apply protoGrid_foldl _ (fun gg b hgg => protoGrid_gridSet hgg _)
    apply protoGrid_foldl _ (fun gg b hgg => protoGrid_gridSet hgg _)
    apply protoGrid_foldl _ (fun gg b hgg => protoGrid_gridSet hgg _)
    exact hg
  · apply protoGrid_foldl _ (fun gg b hgg => protoGrid_gridSet hgg _)
    apply protoGrid_foldl _ (fun gg b hgg => protoGrid_gridSet hgg _)
    exact hg

theorem protoGrid_addDivider {w h : Nat} {g : Grid} (hg : ProtoGrid w h g)
    (r : Rng) : ProtoGrid w h (addDivider g r).1 := by
  unfold addDivider
  dsimp only
  split
  · refine protoGrid_foldl _ (fun gg k hgg => ?_) _ _ hg
    dsimp only
    split
    · exact protoGrid_gridSet hgg _
    · exact hgg
  · refine protoGrid_foldl _ (fun gg k hgg => ?_) _ _ hg
    dsimp only
    split
    · exact protoGrid_gridSet hgg _
    · exact hgg

theorem protoGrid_createComplexRoom {w h : Nat} {g : Grid}
    (hg : ProtoGrid w h g) (st : ComplexitySettings) (r : Rng) :
    ProtoGrid w h (createComplexRoom g st r).1 := by
  unfold createComplexRoom
  dsimp only
  have main : ∀ (l : List Nat) (s : Grid × Rng), ProtoGrid w h s.1 →
      ProtoGrid w h ((l.foldl (fun s2 _ => addDivider s2.1 s2.2) s).1) := by
    intro l
    induction l with
    | nil => intro s hs; exact hs
    | cons b bs ih => intro s hs; exact ih _ (protoGrid_addDivider hs s.2)
  exact main _ (g, r) hg

theorem protoGrid_scatterAux {w h w0 h0 k : Nat} :
    ∀ (fuel : Nat) (g : Grid) (added : Nat) (r : Rng) (gr : Grid × Rng),
      scatterAux w0 h0 k fuel g added r = some gr → ProtoGrid w h g →
      ProtoGrid w h gr.1 := by
  intro fuel
  induction fuel with
  | zero =>
    intro g added r gr hsc
    exact absurd hsc (by rw [scatterAux]; simp)
  | succ fuel ih =>
    intro g added r gr hsc hg
    rw [scatterAux] at hsc
    split at hsc
    · rw [Option.some_inj] at hsc
      rw [← hsc]
      exact hg
    · dsimp only at hsc
      split at hsc
      · exact ih _ _ _ _ hsc (protoGrid_gridSet hg _)
      · exact ih _ _ _ _ hsc hg

theorem mem_doorCandidates_bounds {w h : Nat} (hw : 2 ≤ w) (hh : 2 ≤ h)
    {p : Pos} (hp : p ∈ doorCandidates w h) :
    0 ≤ p.x ∧ 0 ≤ p.y ∧ p.x.toNat < w ∧ p.y.toNat < h := by
  unfold doorCandidates at hp
  rw [List.mem_append] at hp
  rcases hp with hp | hp <;>
    · rw [List.mem_flatMap] at hp
      obtain ⟨a, ha, hpa⟩ := hp
      rw [List.mem_range'_1] at ha
      simp only [List.mem_cons, List.not_mem_nil, or_false] at hpa
      rcases hpa with rfl | rfl <;>
        · dsimp only
          omega

theorem fy_fold_mem (n : Nat) :
    ∀ (ks : List Nat) (acc : List Pos) (r : Rng) (x : Pos),
      x ∈ (ks.foldl (fyStep n) (acc, r)).1 → x ∈ acc ∨ x = ⟨0, 0⟩ := by
  intro ks
  induction ks with
  | nil => intro acc r x hx; exact Or.inl hx
  | cons k ks ih =>
    intro acc r x hx
    rcases ih (fyStep n (acc, r) k).1 (fyStep n (acc, r) k).2 x hx with hx1 | hx1
    · exact mem_swapL hx1
    · exact Or.inr hx1

theorem mem_fisherYates {l : List Pos} {r : Rng} {x : Pos}
    (hx : x ∈ (fisherYates l r).1) : x ∈ l ∨ x = ⟨0, 0⟩ := by
  unfold fisherYates at hx
  exact fy_fold_mem l.length _ l r x hx

/-- `placeDoor` stamps the door at the returned position, and that position
is a ring candidate, the swap filler `(0, 0)`, or the fallback cell. -/
theorem placeDoor_cases (g : Grid) (r : Rng) :
    (placeDoor g r).1 = gridSet g (placeDoor g r).2.1 Cell.door ∧
      ((placeDoor g r).2.1 ∈ doorCandidates ((g.headD []).length) g.length ∨
        (placeDoor g r).2.1 = ⟨0, 0⟩ ∨
        (placeDoor g r).2.1 = ⟨0, ((g.length / 2 : Nat) : Int)⟩) := by
  rw [placeDoor_eq]
  cases hf : (fisherYates (doorCandidates ((g.headD []).length) g.length)
      r).1.find? (doorFits g ((g.headD []).length) g.length) with
  | some p =>
    refine ⟨rfl, ?_⟩
    rcases mem_fisherYates (List.mem_of_find?_eq_some hf) with hm | hm
    · exact Or.inl hm
    · exact Or.inr (Or.inl hm)
  | none => exact ⟨rfl, Or.inr (Or.inr rfl)⟩

theorem protoGrid_headD {w h : Nat} {g : Grid} (hg : ProtoGrid w h g)
    (hh : 0 < h) : (g.headD []).length = w := by
  have hgl : g.length = h := hg.1
  cases g with
  | nil => exact absurd hgl (by simpa using by omega)
  | cons row rows => exact hg.2.1 row (List.mem_cons_self row rows)

theorem placeDoor_pos_bounds {w h : Nat} {g : Grid} (hg : ProtoGrid w h g)
    (hw : 2 ≤ w) (hh : 2 ≤ h) (r : Rng) :
    0 ≤ (placeDoor g r).2.1.x ∧ 0 ≤ (placeDoor g r).2.1.y ∧
      (placeDoor g r).2.1.x.toNat < w ∧ (placeDoor g r).2.1.y.toNat < h := by
  have hwid : (g.headD []).length = w := protoGrid_headD hg (by omega)
  obtain ⟨hfst, hsnd⟩ := placeDoor_cases g r
  rw [hwid, hg.1] at hsnd
  rcases hsnd with hm | hm | hm
  · exact mem_doorCandidates_bounds hw hh hm
  · rw [hm]
    dsimp only
    omega
  · rw [hm]
    dsimp only
    omega

theorem mkSettings_dims {c : Frac} (hd : 0 < c.den) (hn : 0 ≤ c.num) :
    6 ≤ (mkSettings c).width ∧ 6 ≤ (mkSettings c).height ∧
      10 ≤ (mkSettings c).minEmptySpaces := by
  have hD : (0 : Int) < 1 * (c.den * 1) := by simpa using hd
  have h6 : 6 ≤ (fr 6 1 + c * fr 6 1).floor := by
    have hfe : (fr 6 1 + c * fr 6 1).floor
        = Int.fdiv (6 * (c.den * 1) + c.num * 6 * 1) (1 * (c.den * 1)) := rfl
    rw [hfe, Int.fdiv_eq_ediv _ (le_of_lt hD), Int.le_ediv_iff_mul_le hD]
    nlinarith
  have h10 : 10 ≤ (fr 10 1 + c * fr 20 1).floor := by
    have hge : (fr 10 1 + c * fr 20 1).floor
        = Int.fdiv (10 * (c.den * 1) + c.num * 20 * 1) (1 * (c.den * 1)) := rfl
    rw [hge, Int.fdiv_eq_ediv _ (le_of_lt hD), Int.le_ediv_iff_mul_le hD]
    nlinarith
  have hwe : (mkSettings c).width = (fr 6 1 + c * fr 6 1).floor.toNat := rfl
  have hhe : (mkSettings c).height = (fr 6 1 + c * fr 6 1).floor.toNat := rfl
  have hme : (mkSettings c).minEmptySpaces
      = (fr 10 1 + c * fr 20 1).floor.toNat := rfl
  rw [hwe, hhe, hme]
  omega

theorem validateLevel_true {g : Grid} {door : Pos} {st : ComplexitySettings}
    (hv : validateLevel g door st = true) :
    st.minEmptySpaces ≤ reachableEmptyCount g door := by
  unfold validateLevel at hv
  dsimp only at hv
  split at hv
  · exact absurd hv (by simp)
  · exact of_decide_eq_true hv

theorem max0_step {c : Frac} (hd : 0 < c.den) (hn : 0 ≤ c.num) :
    0 < (Frac.max0 (c - fr 1 10)).den ∧ 0 ≤ (Frac.max0 (c - fr 1 10)).num := by
  unfold Frac.max0
  split
  · exact ⟨by decide, by decide⟩
  · rename_i hblt
    have hb : ¬ (c.num * 10 - 1 * c.den) * 1 < 0 * (c.den * 10) := by
      intro hlt
      exact hblt (by exact decide_eq_true hlt)
    constructor
    · show (0 : Int) < c.den * 10
      omega
    · show (0 : Int) ≤ c.num * 10 - 1 * c.den
      omega

theorem gridSet_rowlen {w h : Nat} {g : Grid} (hg : ProtoGrid w h g)
    (p : Pos) (c : Cell) : ∀ row ∈ gridSet g p c, row.length = w := by
  intro row hrow
  rcases Nat.lt_or_ge p.y.toNat g.length with hl | hl
  · rcases List.mem_or_eq_of_mem_set hrow with hr | hr
    · exact hg.2.1 row hr
    · rw [hr, List.length_set, List.getD_eq_getElem g _ hl]
      exact hg.2.1 _ (List.getElem_mem hl)
  · have heq : gridSet g p c = g := by
      unfold gridSet
      exact List.set_eq_of_length_le hl
    rw [heq] at hrow
    exact hg.2.1 row hrow

theorem gridPositions_mem {g : Grid} {x y : Nat} (hy : y < g.length)
    (hx : x < (g.getD y []).length) :
    (⟨(x : Int), (y : Int)⟩ : Pos) ∈ gridPositions g := by
  unfold gridPositions
  rw [List.mem_flatMap]
  exact ⟨y, List.mem_range.mpr hy,
    List.mem_map.mpr ⟨x, List.mem_range.mpr hx, rfl⟩⟩

/-- Pointwise description of stamping a list of wall positions onto a grid,
as the consumer reconstruction does. -/
theorem stamp_fold_cellAt {w h : Nat} :
    ∀ (ws : List Pos) (base : Grid), ProtoGrid w h base →
      ∀ q : Pos,
        cellAt (ws.foldl (fun gg u => gridSet gg u Cell.wall) base) q =
          if ∃ u ∈ ws, u.x.toNat = q.x.toNat ∧ u.y.toNat = q.y.toNat ∧
              u.y.toNat < h ∧ u.x.toNat < w
            then Cell.wall else cellAt base q := by
  intro ws
  induction ws with
  | nil =>
    intro base hb q
    rw [if_neg (by simp)]
    rfl
  | cons u ws ih =>
    intro base hb q
    have hb2 : ProtoGrid w h (gridSet base u Cell.wall) := protoGrid_gridSet hb u
    have hstep := ih (gridSet base u Cell.wall) hb2 q
    show cellAt (ws.foldl _ (gridSet base u Cell.wall)) q = _
    rw [hstep]
    by_cases h1 : ∃ v ∈ ws, v.x.toNat = q.x.toNat ∧ v.y.toNat = q.y.toNat ∧
        v.y.toNat < h ∧ v.x.toNat < w
    · rw [if_pos h1]
      obtain ⟨v, hv, hvq⟩ := h1
      rw [if_pos ⟨v, List.mem_cons_of_mem u hv, hvq⟩]
    · rw [if_neg h1]
      by_cases h2 : u.x.toNat = q.x.toNat ∧ u.y.toNat = q.y.toNat ∧
          u.y.toNat < h ∧ u.x.toNat < w
      · rw [if_pos ⟨u, List.mem_cons_self u ws, h2⟩]
        rw [cellAt_congr_toNat _ h2.1.symm h2.2.1.symm]
        exact cellAt_gridSet_self base u Cell.wall
          (by rw [hb.1]; exact h2.2.2.1)
          (by rw [protoGrid_rowlen hb h2.2.2.1]; exact h2.2.2.2)
      · rw [if_neg ?hcons]
        case hcons =>
          rintro ⟨v, hv, hvq⟩
          rcases List.mem_cons.mp hv with rfl | hv2
          · exact h2 hvq
          · exact h1 ⟨v, hv2, hvq⟩
        by_cases h3 : q.x.toNat = u.x.toNat ∧ q.y.toNat = u.y.toNat
        · rcases Nat.lt_or_ge u.y.toNat base.length with hl | hl
          · rcases Nat.lt_or_ge u.x.toNat (base.getD u.y.toNat []).length
              with hxl | hxl
            · have hyh : u.y.toNat < h := by rw [← hb.1]; exact hl
              have hxw : u.x.toNat < w := by
                rw [← protoGrid_rowlen hb hyh]
                exact hxl
              exact absurd ⟨h3.1.symm, h3.2.symm, hyh, hxw⟩ h2
            · rw [cellAt_gridSet, if_neg (by omega)]
          · rw [cellAt_gridSet, if_neg (by omega)]
        · rw [cellAt_gridSet_other base u q Cell.wall (by tauto)]

theorem getElem_eq_getD (X : Grid) (k m : Nat) (hk : k < X.length)
    (hm : m < X[k].length) : X[k][m] = (X.getD k []).getD m Cell.wall := by
  rw [List.getD_eq_getElem X _ hk, List.getD_eq_getElem _ _ hm]

theorem door_unique {w h : Nat} {g : Grid} (hg : ProtoGrid w h g) {p : Pos}
    (hpx0 : 0 ≤ p.x) (hpy0 : 0 ≤ p.y) (hpy : p.y.toNat < h)
    (hpx : p.x.toNat < w) (q : Pos) (hqx : 0 ≤ q.x) (hqy : 0 ≤ q.y) :
    cellAt (gridSet g p Cell.door) q = Cell.door ↔ q = p := by
  constructor
  · intro hc
    by_cases hpq : p.y.toNat = q.y.toNat ∧ p.x.toNat = q.x.toNat
    · rcases q with ⟨qx, qy⟩
      rcases p with ⟨px, py⟩
      dsimp only at hpq hqx hqy hpx0 hpy0
      have h1 : qx = px := by omega
      have h2 : qy = py := by omega
      rw [h1, h2]
    · rw [cellAt_gridSet_other g p q Cell.door (by tauto)] at hc
      rcases hg.2.2 q with he | he <;> rw [hc] at he <;>
        exact absurd he (by decide)
  · intro hq
    rw [hq]
    exact cellAt_gridSet_self g p Cell.door (by rw [hg.1]; exact hpy)
      (by rw [protoGrid_rowlen hg hpy]; exact hpx)

theorem recon_cell_eq {w h : Nat} {g : Grid} (hg : ProtoGrid w h g) {p : Pos}
    (hpy : p.y.toNat < h) (hpx : p.x.toNat < w) (ws : List Pos)
    (hws : ∀ u, u ∈ ws ↔ u ∈ gridPositions (gridSet g p Cell.door) ∧
      cellAt (gridSet g p Cell.door) u = Cell.wall)
    (i j : Nat) (hi : i < h) (hj : j < w) :
    cellAt (gridSet (ws.foldl (fun gg u => gridSet gg u Cell.wall)
        (List.replicate h (List.replicate w Cell.empty))) p Cell.door)
      ⟨(j : Int), (i : Int)⟩ =
    cellAt (gridSet g p Cell.door) ⟨(j : Int), (i : Int)⟩ := by
  have hbase := protoGrid_base w h
  have hS : ProtoGrid w h (ws.foldl (fun gg u => gridSet gg u Cell.wall)
      (List.replicate h (List.replicate w Cell.empty))) :=
    protoGrid_foldl _ (fun gg u hgg => protoGrid_gridSet hgg u) _ _ hbase
  have hWlen : (gridSet g p Cell.door).length = h := by
    rw [length_gridSet, hg.1]
  have hWrow : ∀ k, k < h → ((gridSet g p Cell.door).getD k []).length = w := by
    intro k hk
    have hkl : k < (gridSet g p Cell.door).length := by rw [hWlen]; exact hk
    rw [List.getD_eq_getElem _ _ hkl]
    exact gridSet_rowlen hg p Cell.door _ (List.getElem_mem hkl)
  have hqx : (⟨(j : Int), (i : Int)⟩ : Pos).x.toNat = j := by
    dsimp only
    omega
  have hqy : (⟨(j : Int), (i : Int)⟩ : Pos).y.toNat = i := by
    dsimp only
    omega
  by_cases hpq : p.y.toNat = i ∧ p.x.toNat = j
  · have cond1 : p.y.toNat = (⟨(j : Int), (i : Int)⟩ : Pos).y.toNat ∧
        p.y.toNat < (ws.foldl (fun gg u => gridSet gg u Cell.wall)
          (List.replicate h (List.replicate w Cell.empty))).length ∧
        p.x.toNat = (⟨(j : Int), (i : Int)⟩ : Pos).x.toNat ∧
        p.x.toNat < ((ws.foldl (fun gg u => gridSet gg u Cell.wall)
          (List.replicate h (List.replicate w Cell.empty))).getD
            p.y.toNat []).length :=
      ⟨by rw [hqy]; exact hpq.1, by rw [hS.1]; exact hpy,
        by rw [hqx]; exact hpq.2, by rw [protoGrid_rowlen hS hpy]; exact hpx⟩
    have cond2 : p.y.toNat = (⟨(j : Int), (i : Int)⟩ : Pos).y.toNat ∧
        p.y.toNat < g.length ∧
        p.x.toNat = (⟨(j : Int), (i : Int)⟩ : Pos).x.toNat ∧
        p.x.toNat < (g.getD p.y.toNat []).length :=
      ⟨by rw [hqy]; exact hpq.1, by rw [hg.1]; exact hpy,
        by rw [hqx]; exact hpq.2, by rw [protoGrid_rowlen hg hpy]; exact hpx⟩
    rw [cellAt_gridSet, if_pos cond1, cellAt_gridSet, if_pos cond2]
  · have hother : (⟨(j : Int), (i : Int)⟩ : Pos).x.toNat ≠ p.x.toNat ∨
        (⟨(j : Int), (i : Int)⟩ : Pos).y.toNat ≠ p.y.toNat := by
      rw [hqx, hqy]
      omega
    rw [cellAt_gridSet_other _ p _ Cell.door hother,
      cellAt_gridSet_other _ p _ Cell.door hother]
    rw [stamp_fold_cellAt ws _ hbase]
    rcases hg.2.2 ⟨(j : Int), (i : Int)⟩ with he | he
    · rw [if_neg ?noex]
      case noex =>
        rintro ⟨u, hu, hux, huy, huh, huw⟩
        obtain ⟨hupos, huwall⟩ := (hws u).mp hu
        obtain ⟨yu, hyu, xu, hxu, rfl⟩ := mem_gridPositions hupos
        dsimp only at hux huy
        have hxuj : xu = j := by omega
        have hyui : yu = i := by omega
        rw [hxuj, hyui] at huwall
        rw [cellAt_gridSet_other _ p _ Cell.door hother] at huwall
        rw [he] at huwall
        exact absurd huwall (by decide)
      rw [he]
      unfold cellAt
      rw [hqy, hqx, getD_replicate, if_pos hi, getD_replicate, if_pos hj]
    · have hqmem : (⟨(j : Int), (i : Int)⟩ : Pos) ∈ ws := by
        rw [hws]
        constructor
        · exact gridPositions_mem
            (show i < (gridSet g p Cell.door).length by rw [hWlen]; exact hi)
            (by rw [hWrow i hi]; exact hj)
        · rw [cellAt_gridSet_other _ p _ Cell.door hother]
          exact he
      rw [if_pos ⟨⟨(j : Int), (i : Int)⟩, hqmem, rfl, rfl,
        by rw [hqy]; exact hi, by rw [hqx]; exact hj⟩]
      exact he.symm

/-- The consumer reconstruction (all-empty grid, then the recorded walls,
then the door) reproduces the generator grid exactly. -/
theorem recon_eq {w h : Nat} {g : Grid} (hg : ProtoGrid w h g) {p : Pos}
    (hpy : p.y.toNat < h) (hpx : p.x.toNat < w) (nm : String)
    (inv : SofaInventory) :
    reconstructGrid
      { width := w, height := h,
        walls := (gridPositions (gridSet g p Cell.door)).filter
          (fun q => cellAt (gridSet g p Cell.door) q == Cell.wall),
        doorPosition := p, name := nm, inventory := inv } =
      gridSet g p Cell.door := by
  have hws : ∀ u, u ∈ (gridPositions (gridSet g p Cell.door)).filter
      (fun q => cellAt (gridSet g p Cell.door) q == Cell.wall) ↔
      u ∈ gridPositions (gridSet g p Cell.door) ∧
        cellAt (gridSet g p Cell.door) u = Cell.wall := by
    intro u
    rw [List.mem_filter, beq_iff_eq]
  have hbase := protoGrid_base w h
  have hS : ProtoGrid w h
      (((gridPositions (gridSet g p Cell.door)).filter
        (fun q => cellAt (gridSet g p Cell.door) q == Cell.wall)).foldl
        (fun gg u => gridSet gg u Cell.wall)
        (List.replicate h (List.replicate w Cell.empty))) :=
    protoGrid_foldl _ (fun gg u hgg => protoGrid_gridSet hgg u) _ _ hbase
  show gridSet
      (((gridPositions (gridSet g p Cell.door)).filter
        (fun q => cellAt (gridSet g p Cell.door) q == Cell.wall)).foldl
        (fun gg u => gridSet gg u Cell.wall)
        (List.replicate h (List.replicate w Cell.empty))) p Cell.door =
    gridSet g p Cell.door
  apply List.ext_getElem
  · rw [length_gridSet, hS.1, length_gridSet, hg.1]
  · intro i hi1 hi2
    have hih : i < h := by
      rw [length_gridSet, hg.1] at hi2
      exact hi2
    apply List.ext_getElem
    · rw [gridSet_rowlen hS p Cell.door _ (List.getElem_mem hi1),
        gridSet_rowlen hg p Cell.door _ (List.getElem_mem hi2)]
    · intro j hj1 hj2
      have hjw : j < w := by
        rw [gridSet_rowlen hg p Cell.door _ (List.getElem_mem hi2)] at hj2
        exact hj2
      have hc1 := recon_cell_eq hg hpy hpx _ hws i j hih hjw
      rw [cellAt_nat, cellAt_nat] at hc1
      rw [getElem_eq_getD _ i j hi1 hj1, getElem_eq_getD _ i j hi2 hj2]
      exact hc1

theorem protoGrid_carve (st : ComplexitySettings) (g1 : Grid) (r : Rng)
    {w h : Nat} (hg : ProtoGrid w h g1) :
    ProtoGrid w h (if (fr 3 10).blt st.roomComplexity then
        (if (fr 7 10).blt st.roomComplexity then createComplexRoom g1 st r
         else createShapedRoom g1 st r) else (g1, r)).1 := by
  split
  · split
    · exact protoGrid_createComplexRoom hg st r
    · exact protoGrid_createShapedRoom hg st r
  · exact hg

/-- Claim C5 (amended): whenever the generator returns a level — for any
complexity value with nonnegative numerator and positive denominator, any
retry and scattering allowance and any draw stream — the grid reconstructed
from its walls and door has exactly one door cell, at `doorPosition`, and at
least `floor (10 + 20 * 0) = 10` empty cells reachable from a door-adjacent
empty cell: the count meets the complexity-scaled minimum of the attempt that
passed validation, whose complexity may have been reduced below the caller's
argument by retries (so the caller-argument bound of the original claim
fails, see the counterexample). -/
theorem claim_C5_reconstruction (c : Frac) (hd : 0 < c.den) (hn : 0 ≤ c.num)
    (n : Nat) (r : Rng) (rfuel sfuel : Nat) (lvl : GeneratedLevel)
    (hgen : generateLevelFuel rfuel c n r sfuel = some lvl) :
    (∀ q : Pos, 0 ≤ q.x → 0 ≤ q.y →
      (cellAt (reconstructGrid lvl) q = Cell.door ↔ q = lvl.doorPosition)) ∧
    10 ≤ reachableEmptyCount (reconstructGrid lvl) lvl.doorPosition := by
  induction rfuel generalizing c r with
  | zero => exact absurd hgen (by rw [generateLevelFuel]; simp)
  | succ rfuel ih =>
    rw [generateLevelFuel] at hgen
    dsimp only at hgen
    rw [Option.bind_eq_some] at hgen
    obtain ⟨gr3, hsc, hF⟩ := hgen
    have hbase := protoGrid_base (mkSettings c).width (mkSettings c).height
    have hg1 := protoGrid_addOuterWalls hbase
    have hgr2 := protoGrid_carve (mkSettings c) _ r hg1
    unfold addInteriorWalls at hsc
    dsimp only at hsc
    have hgr3 := protoGrid_scatterAux _ _ _ _ _ hsc hgr2
    split at hF
    · rename_i hval
      rw [Option.some_inj] at hF
      subst hF
      obtain ⟨hw6, hh6, hmin⟩ := mkSettings_dims (c := c) hd hn
      have hpd := placeDoor_cases gr3.1 gr3.2
      have hpb := placeDoor_pos_bounds hgr3 (by omega) (by omega) gr3.2
      have hv2 := validateLevel_true hval
      rw [hpd.1] at hv2
      constructor
      · intro q hqx hqy
        dsimp only
        rw [hpd.1, recon_eq hgr3 hpb.2.2.2 hpb.2.2.1]
        exact door_unique hgr3 hpb.1 hpb.2.1 hpb.2.2.2 hpb.2.2.1 q hqx hqy
      · dsimp only
        rw [hpd.1, recon_eq hgr3 hpb.2.2.2 hpb.2.2.1]
        omega
    · obtain ⟨hd2, hn2⟩ := max0_step hd hn
      exact ih (Frac.max0 (c - fr 1 10)) hd2 hn2 _ hF

/-- The level produced by `generateLevel 0 5` under the all-zeros draw
stream, used as a concrete instance below. -/
def lvlC5W : GeneratedLevel :=
  { width := 6, height := 6,
    walls := [⟨0, 0⟩, ⟨1, 0⟩, ⟨2, 0⟩, ⟨3, 0⟩, ⟨4, 0⟩, ⟨5, 0⟩,
      ⟨0, 1⟩, ⟨1, 1⟩, ⟨0, 2⟩, ⟨5, 2⟩, ⟨0, 3⟩, ⟨5, 3⟩, ⟨0, 4⟩, ⟨5, 4⟩,
      ⟨0, 5⟩, ⟨1, 5⟩, ⟨2, 5⟩, ⟨3, 5⟩, ⟨4, 5⟩, ⟨5, 5⟩],
    doorPosition := ⟨5, 1⟩,
    name := "Level 5: Small Simple Room",
    inventory := { single := 2, rectangular := 1, lShaped := 1 } }

theorem claim_C5_witness :
    (0 < (fr 0 1).den ∧ 0 ≤ (fr 0 1).num) ∧
      10 ≤ reachableEmptyCount (reconstructGrid lvlC5W) lvlC5W.doorPosition :=
  ⟨⟨by decide, by decide⟩,
    (claim_C5_reconstruction (fr 0 1) (by decide) (by decide) 5
      (constRng (fr 0 1)) 1 2 lvlC5W (by decide)).2⟩

end Friheten
